import Mathlib

/-!
Verification of the psider text-extraction core.

This file gives a shallow embedding, in Lean 4, of the string-processing
core of the psider repository (`src/parse/rehelper.py`,
`src/parse/stringtypes.py`, `src/xyzstr.py`, `src/newparser.py`,
`src/template.py`) and proves or refutes the frozen claims about it.

Modelling conventions, used throughout:

* Python strings are modelled as `List Char` (`Str`).
* The regular-expression engine is external to the repository (the spec
  treats it as an assumed collaborator).  The concrete regexes the code
  builds are all of a fixed, very restricted shape - sequences of literal
  characters, space repetitions `' *'` / `' +'`, the float token
  `-?\d+\.\d+`, the atomic-symbol token `[a-zA-Z]{1,4}` and the word token
  `[a-zA-Z]{2,}` - and on those the Python matcher is deterministic
  (every repetition is followed by a character its class cannot match, so
  greedy matching without backtracking coincides with Python's
  leftmost-greedy semantics).  We therefore embed each compiled regex as a
  deterministic greedy parser and embed `re.search` / `re.finditer` as a
  scan over start offsets.
* The block regex `two_or_more(line_pattern)` is matched against the whole
  string with `re.finditer`.  Every line pattern used by the code contains
  no `\n` except as its final character, so every individual line-pattern
  match ends exactly at a `'\n'`, and a block match consists of a match
  that starts somewhere inside one physical line (at offset `o` from the
  start of that line, `o = 0` meaning the whole line matches) followed by
  a maximal run of full-line matches.  We split the text into its physical
  lines (keeping the terminators, so that joining the lines is the
  identity) and run the block scan at line granularity, carrying the
  in-line offset of the first match; this reproduces the character spans
  of the Python matches exactly.
-/

set_option autoImplicit false

namespace Psider

abbrev Str := List Char

/-- The `'{'` character, written via its code point so that no literal
brace appears in the source of this file. -/
def lbrace : Char := Char.ofNat 123

/-- The `'}'` character. -/
def rbrace : Char := Char.ofNat 125

/-! ## Physical lines

`splitKeepNl` splits a string into its physical lines, keeping each
terminating `'\n'` with its line; the final chunk may lack a terminator.
Joining the pieces is the identity, which is how Python's character-offset
slices `string[:start]`, `string[start:end]`, `string[end:]` are recovered
from line-aligned spans. -/

def splitKeepNl : Str → List Str
  | [] => []
  | c :: cs =>
    if c = '\n' then [c] :: splitKeepNl cs
    else
      match splitKeepNl cs with
      | [] => [[c]]
      | l :: ls => (c :: l) :: ls

theorem join_splitKeepNl (s : Str) : (splitKeepNl s).flatten = s := by
  induction s with
  | nil => rfl
  | cons c cs ih =>
    rw [splitKeepNl]
    by_cases h : c = '\n'
    · rw [if_pos h]
      simp only [List.flatten_cons, List.singleton_append, ih, h]
    · simp only [if_neg h]
      cases hs : splitKeepNl cs with
      | nil =>
        have : cs = [] := by rw [← ih, hs]; rfl
        simp [this]
      | cons l ls =>
        have : (l :: ls).flatten = cs := by rw [← hs, ih]
        simp only [List.flatten_cons] at this ⊢
        rw [List.cons_append, this]

/-! ## The block locator

`rehelper.two_or_more` wraps a line pattern `L` into `(?:L){2,}` and
`get_last_match` returns the last `re.finditer` match of that regex (or
raises `ValueError("No match found in string.")` when there is none,
which we model with `Option`).

At line granularity a line finder is represented by its search function
`lineSearch : Str → Option Nat`, giving the smallest offset inside the
line at which the compiled line pattern matches (to the end of the line),
`none` when the pattern does not match anywhere in the line.  A line
matches *fully* when it matches at offset 0. -/

def isFull (lineSearch : Str → Option Nat) (l : Str) : Bool :=
  lineSearch l = some 0

/-- State of the finditer scan for `(?:L){2,}`:
`idle` - not inside a candidate match;
`cand s o` - the previous line (index `s`) matched at offset `o`, one
repetition so far;
`run s o` - at least two repetitions so far, starting at line `s`,
offset `o`. -/
inductive BState where
  | idle : BState
  | cand (s o : Nat) : BState
  | run (s o : Nat) : BState
deriving Repr, DecidableEq

/-- Restart the scan at line `l` (index `i`): a new candidate begins at
the leftmost in-line match offset, if any. -/
def dispatch (lineSearch : Str → Option Nat) (l : Str) (i : Nat) : BState :=
  match lineSearch l with
  | none => .idle
  | some o => .cand i o

/-- One left-to-right pass of `re.finditer(two_or_more(L), text)` over the
physical lines, collecting the spans of all block matches as triples
`(s, o, e)`: the block starts at offset `o` inside line `s` and ends at
the start of line `e`.  Greedy `{2,}` extends a match through the maximal
run of following full-line matches; scanning resumes at the first line
after a finished match (matches do not overlap). -/
def twoOrMoreScan (lineSearch : Str → Option Nat) :
    List Str → Nat → BState → List (Nat × Nat × Nat)
  | [], i, st =>
    match st with
    | .run s o => [(s, o, i)]
    | _ => []
  | l :: ls, i, st =>
    match st with
    | .idle => twoOrMoreScan lineSearch ls (i + 1) (dispatch lineSearch l i)
    | .cand s o =>
      if isFull lineSearch l then twoOrMoreScan lineSearch ls (i + 1) (.run s o)
      else twoOrMoreScan lineSearch ls (i + 1) (dispatch lineSearch l i)
    | .run s o =>
      if isFull lineSearch l then twoOrMoreScan lineSearch ls (i + 1) (.run s o)
      else (s, o, i) :: twoOrMoreScan lineSearch ls (i + 1) (dispatch lineSearch l i)

/-- `rehelper.get_last_match(two_or_more(line_pattern), string, re.MULTILINE)`:
the span of the last block match, `none` when there is none (the Python
code raises `ValueError` in that case). -/
def getLastBlockMatch (lineSearch : Str → Option Nat) (s : Str) :
    Option (Nat × Nat × Nat) :=
  (twoOrMoreScan lineSearch (splitKeepNl s) 0 .idle).getLast?

/-- Slice the text into `string[:start]`, `string[start:end]`,
`string[end:]` from the line-aligned span `(i, o, e)` (start = offset `o`
inside line `i`, end = start of line `e`). -/
def splitAtBlock (lines : List Str) (i o e : Nat) : Str × Str × Str :=
  match (lines.drop i).take (e - i) with
  | [] => ((lines.take i).flatten, [], (lines.drop e).flatten)
  | m0 :: ms =>
    ((lines.take i).flatten ++ m0.take o, m0.drop o ++ ms.flatten, (lines.drop e).flatten)

theorem splitAtBlock_append (lines : List Str) (i o e : Nat) (hie : i ≤ e) :
    (splitAtBlock lines i o e).1 ++ (splitAtBlock lines i o e).2.1 ++
      (splitAtBlock lines i o e).2.2 = lines.flatten := by
  have hsplit : lines = lines.take i ++ ((lines.drop i).take (e - i) ++ lines.drop e) := by
    have h1 : lines.drop e = (lines.drop i).drop (e - i) := by
      rw [List.drop_drop, Nat.add_sub_cancel' hie]
    rw [h1, List.take_append_drop, List.take_append_drop]
  rw [splitAtBlock]
  cases hm : (lines.drop i).take (e - i) with
  | nil =>
    simp only []
    conv_rhs => rw [hsplit, hm]
    simp [List.flatten_append]
  | cons m0 ms =>
    simp only []
    conv_rhs => rw [hsplit, hm]
    simp only [List.flatten_append, List.flatten_cons, List.append_assoc]
    rw [← List.append_assoc (List.take o m0), List.take_append_drop]

/-- `parse.stringtypes.CoordinateString` (and `GradientString`): the
original string together with the head/body/foot slices computed once at
construction from the last block match.  Construction fails (the
`BlockNotFoundError` of the spec, a `ValueError` in the code) when the
block regex has no match. -/
structure CoordString where
  string : Str
  head : Str
  body : Str
  foot : Str
deriving Repr, DecidableEq

def mkCoordString (lineSearch : Str → Option Nat) (s : Str) : Option CoordString :=
  match getLastBlockMatch lineSearch s with
  | none => none
  | some (i, o, e) =>
    some ⟨s, (splitAtBlock (splitKeepNl s) i o e).1,
      (splitAtBlock (splitKeepNl s) i o e).2.1,
      (splitAtBlock (splitKeepNl s) i o e).2.2⟩

/-! ### Lemmas about the block scan -/

/-- A line *matches* the line pattern when the pattern matches somewhere
inside it (the `re.search` sense: at any start offset). -/
def lineMatches (lineSearch : Str → Option Nat) (l : Str) : Bool :=
  (lineSearch l).isSome

/-- No two consecutive lines both match; `prev` records whether the line
just before the list matched. -/
def noAdjMatches (lineSearch : Str → Option Nat) : Bool → List Str → Bool
  | _, [] => true
  | prev, l :: ls =>
    (!(prev && lineMatches lineSearch l)) && noAdjMatches lineSearch (lineMatches lineSearch l) ls

theorem getLast?_mem_list {α : Type} {l : List α} {x : α} (h : l.getLast? = some x) :
    x ∈ l := by
  rcases List.mem_getLast?_eq_getLast h with ⟨hne, hx⟩
  rw [hx]
  exact List.getLast_mem hne

theorem isFull_lineMatches {m : Str → Option Nat} {l : Str} (h : isFull m l = true) :
    lineMatches m l = true := by
  simp only [isFull, decide_eq_true_eq] at h
  simp [lineMatches, h]

theorem dispatch_of_none {m : Str → Option Nat} {l : Str} {i : Nat}
    (h : lineMatches m l = false) : dispatch m l i = .idle := by
  cases hml : m l with
  | none => simp [dispatch, hml]
  | some o => simp [lineMatches, hml] at h

theorem dispatch_of_some {m : Str → Option Nat} {l : Str} {i o : Nat}
    (h : m l = some o) : dispatch m l i = .cand i o := by
  simp [dispatch, h]

theorem scan_cons_idle (m : Str → Option Nat) (l : Str) (ls : List Str) (i : Nat) :
    twoOrMoreScan m (l :: ls) i .idle = twoOrMoreScan m ls (i + 1) (dispatch m l i) := rfl

theorem scan_cons_cand_full {m : Str → Option Nat} {l : Str} (ls : List Str) (i s o : Nat)
    (hf : isFull m l = true) :
    twoOrMoreScan m (l :: ls) i (.cand s o) = twoOrMoreScan m ls (i + 1) (.run s o) := by
  rw [twoOrMoreScan, if_pos hf]

theorem scan_cons_cand_nf {m : Str → Option Nat} {l : Str} (ls : List Str) (i s o : Nat)
    (hf : isFull m l = false) :
    twoOrMoreScan m (l :: ls) i (.cand s o) =
      twoOrMoreScan m ls (i + 1) (dispatch m l i) := by
  rw [twoOrMoreScan, if_neg (by simp [hf])]

theorem scan_cons_run_full {m : Str → Option Nat} {l : Str} (ls : List Str) (i s o : Nat)
    (hf : isFull m l = true) :
    twoOrMoreScan m (l :: ls) i (.run s o) = twoOrMoreScan m ls (i + 1) (.run s o) := by
  rw [twoOrMoreScan, if_pos hf]

theorem scan_cons_run_nf {m : Str → Option Nat} {l : Str} (ls : List Str) (i s o : Nat)
    (hf : isFull m l = false) :
    twoOrMoreScan m (l :: ls) i (.run s o) =
      (s, o, i) :: twoOrMoreScan m ls (i + 1) (dispatch m l i) := by
  rw [twoOrMoreScan, if_neg (by simp [hf])]

/-- If no two consecutive lines match, the scan finds no block (a block
needs a match immediately followed by a full-line match). -/
theorem scan_empty (m : Str → Option Nat) :
    ∀ (ls : List Str) (i : Nat) (b : Bool) (st : BState),
      noAdjMatches m b ls = true →
      (st = .idle ∨ ∃ s o, st = .cand s o ∧ b = true) →
      twoOrMoreScan m ls i st = [] := by
  intro ls
  induction ls with
  | nil =>
    intro i b st _ hst
    rcases hst with h | ⟨s, o, h, _⟩ <;> simp [twoOrMoreScan, h]
  | cons l ls ih =>
    intro i b st hna hst
    simp only [noAdjMatches, Bool.and_eq_true, Bool.not_eq_true', Bool.and_eq_false_iff] at hna
    obtain ⟨hhd, htl⟩ := hna
    have hdisp : twoOrMoreScan m ls (i + 1) (dispatch m l i) = [] := by
      cases hml : lineMatches m l with
      | false =>
        exact ih (i + 1) (lineMatches m l) _ htl (Or.inl (dispatch_of_none hml))
      | true =>
        have : ∃ o, m l = some o := by
          simpa [lineMatches, Option.isSome_iff_exists] using hml
        obtain ⟨o, ho⟩ := this
        exact ih (i + 1) (lineMatches m l) _ htl (Or.inr ⟨i, o, dispatch_of_some ho, hml⟩)
    rcases hst with h | ⟨s, o, h, hb⟩
    · subst h; rw [scan_cons_idle]; exact hdisp
    · subst h
      have hfull : isFull m l = false := by
        cases hf : isFull m l with
        | false => rfl
        | true =>
          rcases hhd with hb' | hm
          · rw [hb] at hb'; cases hb'
          · rw [isFull_lineMatches hf] at hm; cases hm
      rw [scan_cons_cand_nf ls i s o hfull]; exact hdisp

/-- Running through a list of full-matching lines in the `run` state
extends the current block to its end; the block is emitted when the first
non-full line (or the end of input) is reached, and the scan restarts
there. -/
theorem scan_run (m : Str → Option Nat) :
    ∀ (F ls : List Str) (i s o : Nat),
      (∀ l ∈ F, isFull m l = true) →
      (∀ l lt, ls = l :: lt → isFull m l = false) →
      twoOrMoreScan m (F ++ ls) i (.run s o) =
        (s, o, i + F.length) :: twoOrMoreScan m ls (i + F.length) .idle := by
  intro F
  induction F with
  | nil =>
    intro ls i s o _ hhd
    cases ls with
    | nil => simp [twoOrMoreScan]
    | cons l lt =>
      have hf : isFull m l = false := hhd l lt rfl
      simp only [List.nil_append, List.length_nil, Nat.add_zero]
      rw [scan_cons_run_nf lt i s o hf, scan_cons_idle]
  | cons f F2 ih =>
    intro ls i s o hF hhd
    have hf : isFull m f = true := hF f (by simp)
    have h2 : ∀ l ∈ F2, isFull m l = true := fun l hl => hF l (by simp [hl])
    rw [List.cons_append, scan_cons_run_full (F2 ++ ls) i s o hf,
      ih ls (i + 1) s o h2 hhd]
    have harith : i + 1 + F2.length = i + (f :: F2).length := by
      simp only [List.length_cons]; omega
    rw [harith]

/-- A run `R` whose first line matches at offset `o0` and whose remaining
lines all match fully, followed by a line that does not match fully, is
scanned (from the idle state) as one block spanning exactly `R`. -/
theorem scan_chain (m : Str → Option Nat) (r0 r1 : Str) (R2 ls : List Str) (i o0 : Nat)
    (h0 : m r0 = some o0) (h1 : isFull m r1 = true)
    (hR : ∀ l ∈ R2, isFull m l = true)
    (hhd : ∀ l lt, ls = l :: lt → isFull m l = false) :
    twoOrMoreScan m ((r0 :: r1 :: R2) ++ ls) i .idle =
      (i, o0, i + (r0 :: r1 :: R2).length) :: twoOrMoreScan m ls (i + (r0 :: r1 :: R2).length) .idle := by
  rw [List.cons_append, List.cons_append, scan_cons_idle, dispatch_of_some h0,
    scan_cons_cand_full (R2 ++ ls) (i + 1) i o0 h1,
    scan_run m R2 ls (i + 1 + 1) i o0 hR hhd]
  have harith : i + 1 + 1 + R2.length = i + (r0 :: r1 :: R2).length := by
    simp only [List.length_cons]; omega
  rw [harith]

/-- Scanning a stretch with no two consecutive matches, ending in a
non-matching line, produces no block and leaves the scan idle at the
other end. -/
theorem scan_skip (m : Str → Option Nat) :
    ∀ (A Z : List Str) (i : Nat) (b : Bool) (st : BState),
      A ≠ [] →
      noAdjMatches m b A = true →
      (∀ l, A.getLast? = some l → lineMatches m l = false) →
      (st = .idle ∨ ∃ s o, st = .cand s o ∧ b = true) →
      twoOrMoreScan m (A ++ Z) i st = twoOrMoreScan m Z (i + A.length) .idle := by
  intro A
  induction A with
  | nil => intro Z i b st h; cases h rfl
  | cons a A2 ih =>
    intro Z i b st _ hna hlast hst
    simp only [noAdjMatches, Bool.and_eq_true, Bool.not_eq_true', Bool.and_eq_false_iff] at hna
    obtain ⟨hhd, htl⟩ := hna
    have hstep : twoOrMoreScan m (A2 ++ Z) (i + 1) (dispatch m a i) =
        twoOrMoreScan m Z (i + 1 + A2.length) .idle := by
      cases hA2 : A2 with
      | nil =>
        have hma : lineMatches m a = false := by
          apply hlast; simp [hA2]
        rw [dispatch_of_none hma]
        simp [hA2]
      | cons x xs =>
        rw [← hA2]
        have hA2ne : A2 ≠ [] := by simp [hA2]
        cases hml : lineMatches m a with
        | false =>
          rw [dispatch_of_none hml]
          exact ih Z (i + 1) (lineMatches m a) _ hA2ne htl
            (fun l hl => hlast l (List.mem_getLast?_cons hl))
            (Or.inl rfl)
        | true =>
          have : ∃ o, m a = some o := by
            simpa [lineMatches, Option.isSome_iff_exists] using hml
          obtain ⟨o, ho⟩ := this
          rw [dispatch_of_some ho]
          exact ih Z (i + 1) (lineMatches m a) _ hA2ne htl
            (fun l hl => hlast l (List.mem_getLast?_cons hl))
            (Or.inr ⟨i, o, rfl, hml⟩)
    rcases hst with h | ⟨s, o, h, hb⟩
    · subst h
      rw [List.cons_append, scan_cons_idle, hstep]
      simp only [List.length_cons]
      congr 1; omega
    · subst h
      have hfull : isFull m a = false := by
        cases hf : isFull m a with
        | false => rfl
        | true =>
          rcases hhd with hb' | hm
          · rw [hb] at hb'; cases hb'
          · rw [isFull_lineMatches hf] at hm; cases hm
      rw [List.cons_append, scan_cons_cand_nf (A2 ++ Z) i s o hfull, hstep]
      simp only [List.length_cons]
      congr 1; omega

/-- Every block the scan emits has `start + 2 ≤ end`: a block covers at
least two lines. -/
theorem scan_mem_span (m : Str → Option Nat) :
    ∀ (ls : List Str) (i : Nat) (st : BState) (blk : Nat × Nat × Nat),
      blk ∈ twoOrMoreScan m ls i st →
      (∀ s o, st = .cand s o → s + 1 ≤ i) →
      (∀ s o, st = .run s o → s + 2 ≤ i) →
      blk.1 + 2 ≤ blk.2.2 := by
  intro ls
  induction ls with
  | nil =>
    intro i st blk hmem hcand hrun
    cases st with
    | idle => simp [twoOrMoreScan] at hmem
    | cand s o => simp [twoOrMoreScan] at hmem
    | run s o =>
      simp only [twoOrMoreScan, List.mem_singleton] at hmem
      subst hmem
      exact hrun s o rfl
  | cons l ls ih =>
    intro i st blk hmem hcand hrun
    have hdisp : ∀ s o, dispatch m l i = .cand s o → s + 1 ≤ i + 1 := by
      intro s o h
      simp only [dispatch] at h
      cases hml : m l with
      | none => rw [hml] at h; cases h
      | some o2 => rw [hml] at h; cases h; omega
    have hdisp2 : ∀ s o, dispatch m l i = .run s o → s + 2 ≤ i + 1 := by
      intro s o h
      simp only [dispatch] at h
      cases hml : m l with
      | none => rw [hml] at h; cases h
      | some o2 => rw [hml] at h; cases h
    cases st with
    | idle =>
      simp only [twoOrMoreScan] at hmem
      exact ih (i + 1) _ blk hmem hdisp hdisp2
    | cand s o =>
      simp only [twoOrMoreScan] at hmem
      by_cases hf : isFull m l = true
      · rw [if_pos hf] at hmem
        refine ih (i + 1) _ blk hmem (by intro s2 o2 h; cases h) ?_
        intro s2 o2 h
        cases h
        have := hcand s o rfl
        omega
      · rw [if_neg hf] at hmem
        exact ih (i + 1) _ blk hmem hdisp hdisp2
    | run s o =>
      simp only [twoOrMoreScan] at hmem
      by_cases hf : isFull m l = true
      · rw [if_pos hf] at hmem
        refine ih (i + 1) _ blk hmem (by intro s2 o2 h; cases h) ?_
        intro s2 o2 h
        cases h
        have := hrun s o rfl
        omega
      · rw [if_neg hf] at hmem
        rcases List.mem_cons.mp hmem with h | h
        · subst h
          exact hrun s o rfl
        · exact ih (i + 1) _ blk h hdisp hdisp2

/-- Any located block has a span of at least two lines. -/
theorem getLastBlockMatch_span {m : Str → Option Nat} {s : Str} {i o e : Nat}
    (h : getLastBlockMatch m s = some (i, o, e)) : i + 2 ≤ e := by
  have hmem : (i, o, e) ∈ twoOrMoreScan m (splitKeepNl s) 0 .idle :=
    getLast?_mem_list h
  exact scan_mem_span m (splitKeepNl s) 0 .idle (i, o, e) hmem
    (by intro _ _ h2; cases h2) (by intro _ _ h2; cases h2)

/-- The head/body/foot slices of a constructed container partition its
string exactly (claim-relevant invariant of
`CoordinateString.__init__` / `GradientString.__init__` /
`xyzstr.XYZString.__init__`). -/
theorem mkCoordString_partition {m : Str → Option Nat} {s : Str} {c : CoordString}
    (h : mkCoordString m s = some c) :
    c.string = s ∧ c.head ++ c.body ++ c.foot = c.string := by
  unfold mkCoordString at h
  cases hloc : getLastBlockMatch m s with
  | none => rw [hloc] at h; cases h
  | some blk =>
    obtain ⟨i, o, e⟩ := blk
    rw [hloc] at h
    simp only [Option.some_inj] at h
    subst h
    refine ⟨rfl, ?_⟩
    have hie : i ≤ e := by have := getLastBlockMatch_span hloc; omega
    have := splitAtBlock_append (splitKeepNl s) i o e hie
    simpa [join_splitKeepNl] using this

/-! ## The compiled coordinate line pattern

`rehelper.CoordinateLineFinder` with the default pattern
`' *@Atom +@XCoord +@YCoord +@ZCoord *\n'` compiles (by substituting
`atomic_symbol = [a-zA-Z]{1,4}` and `float_ = -?\d+\.\d+`) to the regex
`' *[a-zA-Z]{1,4} +-?\d+\.\d+ +-?\d+\.\d+ +-?\d+\.\d+ *\n'`.  Its
inverse-capturing variant (`get_coordinates_inverse_pattern`) groups the
text into `( *[a-zA-Z]{1,4} +)F( +)F( +)F( *\n)` where `F` is the float
token; we parse a line into those seven pieces.  On this alphabet greedy
matching is deterministic and equal to Python's (each repetition is
followed by a character class disjoint from its own), so the parser below
is an exact embedding of the compiled regex. -/

def isSp (c : Char) : Bool := c = ' '

def isLetter (c : Char) : Bool :=
  (97 ≤ c.toNat && c.toNat ≤ 122) || (65 ≤ c.toNat && c.toNat ≤ 90)

def isDigitCh (c : Char) : Bool := 48 ≤ c.toNat && c.toNat ≤ 57

/-- Greedy span: the maximal prefix whose characters satisfy `p`, and the
rest. -/
def spanP (p : Char → Bool) : Str → Str × Str
  | [] => ([], [])
  | c :: cs =>
    if p c then
      let t := spanP p cs
      (c :: t.1, t.2)
    else ([], c :: cs)

theorem spanP_append (p : Char → Bool) (s : Str) : (spanP p s).1 ++ (spanP p s).2 = s := by
  induction s with
  | nil => rfl
  | cons c cs ih =>
    rw [spanP]
    by_cases h : p c = true
    · rw [if_pos h]; simpa using ih
    · rw [if_neg h]; rfl

theorem spanP_pred (p : Char → Bool) (s : Str) : ∀ c ∈ (spanP p s).1, p c = true := by
  induction s with
  | nil => intro c hc; simp [spanP] at hc
  | cons c cs ih =>
    intro d hd
    rw [spanP] at hd
    by_cases h : p c = true
    · rw [if_pos h] at hd
      simp only [List.mem_cons] at hd
      rcases hd with h2 | h2
      · rwa [h2]
      · exact ih d h2
    · rw [if_neg h] at hd; simp at hd

theorem spanP_ext (p : Char → Bool) (s u : Str) (h : (spanP p s).2 ≠ []) :
    spanP p (s ++ u) = ((spanP p s).1, (spanP p s).2 ++ u) := by
  induction s with
  | nil => simp [spanP] at h
  | cons c cs ih =>
    by_cases hc : p c = true
    · rw [spanP, if_pos hc] at h ⊢
      rw [List.cons_append, spanP, if_pos hc]
      have := ih h
      rw [this]
    · rw [spanP, if_neg hc] at h ⊢
      rw [List.cons_append, spanP, if_neg hc]

/-- Greedy `[a-zA-Z]{1,4}` with bound `n`: up to `n` leading letters. -/
def takeSym : Nat → Str → Str × Str
  | 0, s => ([], s)
  | _ + 1, [] => ([], [])
  | n + 1, c :: cs =>
    if isLetter c then
      let t := takeSym n cs
      (c :: t.1, t.2)
    else ([], c :: cs)

theorem takeSym_append (n : Nat) (s : Str) : (takeSym n s).1 ++ (takeSym n s).2 = s := by
  induction n generalizing s with
  | zero => rfl
  | succ n ih =>
    cases s with
    | nil => rfl
    | cons c cs =>
      rw [takeSym]
      by_cases h : isLetter c = true
      · rw [if_pos h]; simpa using ih cs
      · rw [if_neg h]; rfl

theorem takeSym_pred (n : Nat) (s : Str) : ∀ c ∈ (takeSym n s).1, isLetter c = true := by
  induction n generalizing s with
  | zero => intro c hc; simp [takeSym] at hc
  | succ n ih =>
    cases s with
    | nil => intro c hc; simp [takeSym] at hc
    | cons c cs =>
      intro d hd
      rw [takeSym] at hd
      by_cases h : isLetter c = true
      · rw [if_pos h] at hd
        simp only [List.mem_cons] at hd
        rcases hd with h2 | h2
        · rwa [h2]
        · exact ih cs d h2
      · rw [if_neg h] at hd; simp at hd

theorem takeSym_ext (n : Nat) (s u : Str) (h : (takeSym n s).2 ≠ []) :
    takeSym n (s ++ u) = ((takeSym n s).1, (takeSym n s).2 ++ u) := by
  induction n generalizing s with
  | zero => simp [takeSym]
  | succ n ih =>
    cases s with
    | nil => simp [takeSym] at h
    | cons c cs =>
      by_cases hc : isLetter c = true
      · rw [takeSym, if_pos hc] at h ⊢
        rw [List.cons_append, takeSym, if_pos hc]
        have := ih cs h
        rw [this]
      · rw [takeSym, if_neg hc] at h ⊢
        rw [List.cons_append, takeSym, if_neg hc]

/-- The compiled float token `-?\d+\.\d+`: returns the matched token and
the rest of the input.  `parseFloatNum` handles the part after the
optional sign. -/
def parseFloatNum (sign : Str) (s1 : Str) : Option (Str × Str) :=
  if (spanP isDigitCh s1).1 = [] then none
  else
    if (spanP isDigitCh s1).2.head? = some '.' then
      if (spanP isDigitCh (spanP isDigitCh s1).2.tail).1 = [] then none
      else
        some (sign ++ (spanP isDigitCh s1).1 ++
            '.' :: (spanP isDigitCh (spanP isDigitCh s1).2.tail).1,
          (spanP isDigitCh (spanP isDigitCh s1).2.tail).2)
    else none

def parseFloat (s : Str) : Option (Str × Str) :=
  if s.head? = some '-' then parseFloatNum ['-'] s.tail else parseFloatNum [] s

theorem parseFloatNum_recon {sign s1 f r : Str} (h : parseFloatNum sign s1 = some (f, r)) :
    f ++ r = sign ++ s1 := by
  unfold parseFloatNum at h
  by_cases h1 : (spanP isDigitCh s1).1 = []
  · rw [if_pos h1] at h; cases h
  · rw [if_neg h1] at h
    by_cases h2 : (spanP isDigitCh s1).2.head? = some '.'
    · rw [if_pos h2] at h
      by_cases h3 : (spanP isDigitCh (spanP isDigitCh s1).2.tail).1 = []
      · rw [if_pos h3] at h; cases h
      · rw [if_neg h3] at h
        simp only [Option.some_inj, Prod.mk.injEq] at h
        have e1 : (spanP isDigitCh s1).2 = '.' :: (spanP isDigitCh s1).2.tail := by
          cases he : (spanP isDigitCh s1).2 with
          | nil => rw [he] at h2; simp at h2
          | cons a as => rw [he] at h2; simp at h2; simp [h2]
        rw [← h.1, ← h.2]
        have e2 := spanP_append isDigitCh s1
        have e3 := spanP_append isDigitCh (spanP isDigitCh s1).2.tail
        conv_rhs => rw [← e2, e1, ← e3]
        simp
    · rw [if_neg h2] at h; cases h

theorem parseFloatNum_pieces {sign s1 f r : Str} (h : parseFloatNum sign s1 = some (f, r)) :
    ∃ d1 d2, f = sign ++ d1 ++ '.' :: d2 ∧ d1 ≠ [] ∧ d2 ≠ [] ∧
      (∀ c ∈ d1, isDigitCh c = true) ∧ (∀ c ∈ d2, isDigitCh c = true) := by
  unfold parseFloatNum at h
  by_cases h1 : (spanP isDigitCh s1).1 = []
  · rw [if_pos h1] at h; cases h
  · rw [if_neg h1] at h
    by_cases h2 : (spanP isDigitCh s1).2.head? = some '.'
    · rw [if_pos h2] at h
      by_cases h3 : (spanP isDigitCh (spanP isDigitCh s1).2.tail).1 = []
      · rw [if_pos h3] at h; cases h
      · rw [if_neg h3] at h
        simp only [Option.some_inj, Prod.mk.injEq] at h
        exact ⟨_, _, h.1.symm, h1, h3, spanP_pred isDigitCh s1, spanP_pred isDigitCh _⟩
    · rw [if_neg h2] at h; cases h

theorem head?_append_of_ne_nil {s u : Str} (h : s ≠ []) : (s ++ u).head? = s.head? := by
  cases s with
  | nil => cases h rfl
  | cons a as => rfl

theorem tail_append_of_ne_nil {s u : Str} (h : s ≠ []) : (s ++ u).tail = s.tail ++ u := by
  cases s with
  | nil => cases h rfl
  | cons a as => rfl

theorem parseFloatNum_ext {sign s1 f r : Str} (u : Str)
    (h : parseFloatNum sign s1 = some (f, r)) (hr : r ≠ []) :
    parseFloatNum sign (s1 ++ u) = some (f, r ++ u) := by
  unfold parseFloatNum at h ⊢
  by_cases h1 : (spanP isDigitCh s1).1 = []
  · rw [if_pos h1] at h; cases h
  · rw [if_neg h1] at h
    by_cases h2 : (spanP isDigitCh s1).2.head? = some '.'
    · rw [if_pos h2] at h
      by_cases h3 : (spanP isDigitCh (spanP isDigitCh s1).2.tail).1 = []
      · rw [if_pos h3] at h; cases h
      · rw [if_neg h3] at h
        simp only [Option.some_inj, Prod.mk.injEq] at h
        have hd1ne : (spanP isDigitCh s1).2 ≠ [] := by
          intro he; rw [he] at h2; simp at h2
        rw [spanP_ext isDigitCh s1 u hd1ne]
        simp only
        rw [if_neg h1, head?_append_of_ne_nil hd1ne, if_pos h2,
          tail_append_of_ne_nil hd1ne]
        have hd2ne : (spanP isDigitCh (spanP isDigitCh s1).2.tail).2 ≠ [] := by
          rw [h.2]; exact hr
        rw [spanP_ext isDigitCh _ u hd2ne]
        simp only
        rw [if_neg h3, h.1, h.2]
    · rw [if_neg h2] at h; cases h

theorem parseFloat_recon {s f r : Str} (h : parseFloat s = some (f, r)) : s = f ++ r := by
  unfold parseFloat at h
  by_cases hm : s.head? = some '-'
  · rw [if_pos hm] at h
    have hs : s = '-' :: s.tail := by
      cases s with
      | nil => simp at hm
      | cons a as => simp at hm; simp [hm]
    rw [parseFloatNum_recon h]
    conv_lhs => rw [hs]
    rfl
  · rw [if_neg hm] at h
    rw [parseFloatNum_recon h]
    rfl

theorem parseFloat_pieces {s f r : Str} (h : parseFloat s = some (f, r)) :
    ∃ sign d1 d2, f = sign ++ d1 ++ '.' :: d2 ∧ (sign = [] ∨ sign = ['-']) ∧
      d1 ≠ [] ∧ d2 ≠ [] ∧ (∀ c ∈ d1, isDigitCh c = true) ∧
      (∀ c ∈ d2, isDigitCh c = true) := by
  unfold parseFloat at h
  by_cases hm : s.head? = some '-'
  · rw [if_pos hm] at h
    obtain ⟨d1, d2, hf, hd1, hd2, hp1, hp2⟩ := parseFloatNum_pieces h
    exact ⟨['-'], d1, d2, hf, Or.inr rfl, hd1, hd2, hp1, hp2⟩
  · rw [if_neg hm] at h
    obtain ⟨d1, d2, hf, hd1, hd2, hp1, hp2⟩ := parseFloatNum_pieces h
    exact ⟨[], d1, d2, hf, Or.inl rfl, hd1, hd2, hp1, hp2⟩

theorem parseFloat_ext {s f r : Str} (u : Str) (h : parseFloat s = some (f, r))
    (hr : r ≠ []) : parseFloat (s ++ u) = some (f, r ++ u) := by
  have hsne : s ≠ [] := by
    intro he
    rw [he] at h
    simp [parseFloat, parseFloatNum, spanP] at h
  unfold parseFloat at h ⊢
  rw [head?_append_of_ne_nil hsne]
  by_cases hm : s.head? = some '-'
  · rw [if_pos hm] at h ⊢
    rw [tail_append_of_ne_nil hsne]
    exact parseFloatNum_ext u h hr
  · rw [if_neg hm] at h ⊢
    exact parseFloatNum_ext u h hr

/-- One-or-more spaces `' +'`. -/
def parseSp1 (s : Str) : Option (Str × Str) :=
  if (spanP isSp s).1 = [] then none else some (spanP isSp s)

/-- The atomic-symbol token `[a-zA-Z]{1,4}`. -/
def parseSym (s : Str) : Option (Str × Str) :=
  if (takeSym 4 s).1 = [] then none else some (takeSym 4 s)

theorem parseSp1_recon {s t r : Str} (h : parseSp1 s = some (t, r)) : t ++ r = s := by
  unfold parseSp1 at h
  by_cases h1 : (spanP isSp s).1 = []
  · rw [if_pos h1] at h; cases h
  · rw [if_neg h1] at h
    simp only [Option.some_inj, Prod.ext_iff] at h
    rw [← h.1, ← h.2]
    exact spanP_append isSp s

theorem parseSp1_pred {s t r : Str} (h : parseSp1 s = some (t, r)) :
    t ≠ [] ∧ ∀ c ∈ t, isSp c = true := by
  unfold parseSp1 at h
  by_cases h1 : (spanP isSp s).1 = []
  · rw [if_pos h1] at h; cases h
  · rw [if_neg h1] at h
    simp only [Option.some_inj, Prod.ext_iff] at h
    constructor
    · rw [← h.1]; exact h1
    · intro c hc
      apply spanP_pred isSp s
      rw [h.1]; exact hc

theorem parseSp1_ext {s t r : Str} (u : Str) (h : parseSp1 s = some (t, r)) (hr : r ≠ []) :
    parseSp1 (s ++ u) = some (t, r ++ u) := by
  unfold parseSp1 at h ⊢
  by_cases h1 : (spanP isSp s).1 = []
  · rw [if_pos h1] at h; cases h
  · rw [if_neg h1] at h
    simp only [Option.some_inj, Prod.ext_iff] at h
    have h2 : (spanP isSp s).2 ≠ [] := by rw [h.2]; exact hr
    rw [spanP_ext isSp s u h2]
    simp only
    rw [if_neg h1, h.1, h.2]

theorem parseSym_recon {s t r : Str} (h : parseSym s = some (t, r)) : t ++ r = s := by
  unfold parseSym at h
  by_cases h1 : (takeSym 4 s).1 = []
  · rw [if_pos h1] at h; cases h
  · rw [if_neg h1] at h
    simp only [Option.some_inj, Prod.ext_iff] at h
    rw [← h.1, ← h.2]
    exact takeSym_append 4 s

theorem parseSym_pred {s t r : Str} (h : parseSym s = some (t, r)) :
    t ≠ [] ∧ ∀ c ∈ t, isLetter c = true := by
  unfold parseSym at h
  by_cases h1 : (takeSym 4 s).1 = []
  · rw [if_pos h1] at h; cases h
  · rw [if_neg h1] at h
    simp only [Option.some_inj, Prod.ext_iff] at h
    constructor
    · rw [← h.1]; exact h1
    · intro c hc
      apply takeSym_pred 4 s
      rw [h.1]; exact hc

theorem parseSym_ext {s t r : Str} (u : Str) (h : parseSym s = some (t, r)) (hr : r ≠ []) :
    parseSym (s ++ u) = some (t, r ++ u) := by
  unfold parseSym at h ⊢
  by_cases h1 : (takeSym 4 s).1 = []
  · rw [if_pos h1] at h; cases h
  · rw [if_neg h1] at h
    simp only [Option.some_inj, Prod.ext_iff] at h
    have h2 : (takeSym 4 s).2 ≠ [] := by rw [h.2]; exact hr
    rw [takeSym_ext 4 s u h2]
    simp only
    rw [if_neg h1, h.1, h.2]

/-- The seven groups of the inverse-capturing coordinate line pattern
`( *[a-zA-Z]{1,4} +)F( +)F( +)F( *\n)` (groups `g0..g3`, float tokens
`f1..f3`); `CoordinateString.replace_coordinates_with_placeholder` joins
`g0, g1, g2, g3` with the placeholder and `extract_coordinates` collects
`f1, f2, f3`. -/
structure CoordPieces where
  g0 : Str
  f1 : Str
  g1 : Str
  f2 : Str
  g2 : Str
  f3 : Str
  g3 : Str
deriving Repr, DecidableEq

/-- Match the compiled default coordinate line pattern at the start of
`s`, greedily; returns the seven groups and the unconsumed rest.  The
match ends right after the `'\n'` required by the pattern. -/
def parseCoordAt (s : Str) : Option (CoordPieces × Str) :=
  match parseSym (spanP isSp s).2 with
  | none => none
  | some (sym, s1) =>
    match parseSp1 s1 with
    | none => none
    | some (sp1, s2) =>
      match parseFloat s2 with
      | none => none
      | some (f1, s3) =>
        match parseSp1 s3 with
        | none => none
        | some (g1, s4) =>
          match parseFloat s4 with
          | none => none
          | some (f2, s5) =>
            match parseSp1 s5 with
            | none => none
            | some (g2, s6) =>
              match parseFloat s6 with
              | none => none
              | some (f3, s7) =>
                if (spanP isSp s7).2.head? = some '\n' then
                  some (⟨(spanP isSp s).1 ++ sym ++ sp1, f1, g1, f2, g2, f3,
                    (spanP isSp s7).1 ++ ['\n']⟩, (spanP isSp s7).2.tail)
                else none

/-- The concatenation of a `CoordPieces` value, in pattern order. -/
def CoordPieces.flat (pr : CoordPieces) : Str :=
  pr.g0 ++ pr.f1 ++ pr.g1 ++ pr.f2 ++ pr.g2 ++ pr.f3 ++ pr.g3

/-- Destructor for a successful `parseCoordAt`. -/
theorem parseCoordAt_elim {s : Str} {pr : CoordPieces} {r : Str}
    (h : parseCoordAt s = some (pr, r)) :
    ∃ sym s1 sp1 s2 f1 s3 g1 s4 f2 s5 g2 s6 f3 s7,
      parseSym (spanP isSp s).2 = some (sym, s1) ∧
      parseSp1 s1 = some (sp1, s2) ∧
      parseFloat s2 = some (f1, s3) ∧
      parseSp1 s3 = some (g1, s4) ∧
      parseFloat s4 = some (f2, s5) ∧
      parseSp1 s5 = some (g2, s6) ∧
      parseFloat s6 = some (f3, s7) ∧
      (spanP isSp s7).2.head? = some '\n' ∧
      pr = ⟨(spanP isSp s).1 ++ sym ++ sp1, f1, g1, f2, g2, f3,
        (spanP isSp s7).1 ++ ['\n']⟩ ∧
      r = (spanP isSp s7).2.tail := by
  unfold parseCoordAt at h
  cases h1 : parseSym (spanP isSp s).2 with
  | none => simp only [h1] at h; exact Option.noConfusion h
  | some p1 =>
    obtain ⟨sym, s1⟩ := p1
    simp only [h1] at h
    cases h2 : parseSp1 s1 with
    | none => simp only [h2] at h; exact Option.noConfusion h
    | some p2 =>
      obtain ⟨sp1, s2⟩ := p2
      simp only [h2] at h
      cases h3 : parseFloat s2 with
      | none => simp only [h3] at h; exact Option.noConfusion h
      | some p3 =>
        obtain ⟨f1, s3⟩ := p3
        simp only [h3] at h
        cases h4 : parseSp1 s3 with
        | none => simp only [h4] at h; exact Option.noConfusion h
        | some p4 =>
          obtain ⟨g1, s4⟩ := p4
          simp only [h4] at h
          cases h5 : parseFloat s4 with
          | none => simp only [h5] at h; exact Option.noConfusion h
          | some p5 =>
            obtain ⟨f2, s5⟩ := p5
            simp only [h5] at h
            cases h6 : parseSp1 s5 with
            | none => simp only [h6] at h; exact Option.noConfusion h
            | some p6 =>
              obtain ⟨g2, s6⟩ := p6
              simp only [h6] at h
              cases h7 : parseFloat s6 with
              | none => simp only [h7] at h; exact Option.noConfusion h
              | some p7 =>
                obtain ⟨f3, s7⟩ := p7
                simp only [h7] at h
                by_cases h8 : (spanP isSp s7).2.head? = some '\n'
                · rw [if_pos h8] at h
                  simp only [Option.some_inj, Prod.ext_iff] at h
                  exact ⟨sym, s1, sp1, s2, f1, s3, g1, s4, f2, s5, g2, s6, f3, s7,
                    rfl, h2, h3, h4, h5, h6, h7, h8, h.1.symm, h.2.symm⟩
                · rw [if_neg h8] at h; cases h

theorem parseCoordAt_recon {s : Str} {pr : CoordPieces} {r : Str}
    (h : parseCoordAt s = some (pr, r)) : s = pr.flat ++ r := by
  obtain ⟨sym, s1, sp1, s2, f1, s3, g1, s4, f2, s5, g2, s6, f3, s7,
    hsym, hsp1, hf1, hg1, hf2, hg2, hf3, hnl, hpr, hr⟩ := parseCoordAt_elim h
  have e0 := spanP_append isSp s
  have e1 := parseSym_recon hsym
  have e2 := parseSp1_recon hsp1
  have e3 := parseFloat_recon hf1
  have e4 := parseSp1_recon hg1
  have e5 := parseFloat_recon hf2
  have e6 := parseSp1_recon hg2
  have e7 := parseFloat_recon hf3
  have e8 := spanP_append isSp s7
  have e9 : (spanP isSp s7).2 = '\n' :: r := by
    cases he : (spanP isSp s7).2 with
    | nil => rw [he] at hnl; cases hnl
    | cons a as =>
      rw [he] at hnl hr
      simp only [List.head?_cons, Option.some_inj] at hnl
      simp only [List.tail_cons] at hr
      rw [hnl, hr]
  subst hpr
  rw [CoordPieces.flat]
  simp only
  conv_lhs => rw [← e0, ← e1, ← e2, e3, ← e4, e5, ← e6, e7, ← e8, e9]
  simp [List.append_assoc]

/-- Match extension: a full-line match extends to any continuation, with
the continuation left unconsumed (greedy sub-matches never cross the
final newline, so they are unaffected). -/
theorem parseCoordAt_ext {s : Str} {pr : CoordPieces} (u : Str)
    (h : parseCoordAt s = some (pr, [])) : parseCoordAt (s ++ u) = some (pr, u) := by
  obtain ⟨sym, s1, sp1, s2, f1, s3, g1, s4, f2, s5, g2, s6, f3, s7,
    hsym, hsp1, hf1, hg1, hf2, hg2, hf3, hnl, hpr, hr⟩ := parseCoordAt_elim h
  have hsp7ne : (spanP isSp s7).2 ≠ [] := by
    intro he; rw [he] at hnl; cases hnl
  have hs7ne : s7 ≠ [] := by
    intro he
    rw [he] at hsp7ne
    exact hsp7ne rfl
  have hs6ne : s6 ≠ [] := by
    rw [parseFloat_recon hf3]
    intro he
    exact hs7ne (List.append_eq_nil.mp he).2
  have hs5ne : s5 ≠ [] := by
    rw [← parseSp1_recon hg2]
    intro he
    exact hs6ne (List.append_eq_nil.mp he).2
  have hs4ne : s4 ≠ [] := by
    rw [parseFloat_recon hf2]
    intro he
    exact hs5ne (List.append_eq_nil.mp he).2
  have hs3ne : s3 ≠ [] := by
    rw [← parseSp1_recon hg1]
    intro he
    exact hs4ne (List.append_eq_nil.mp he).2
  have hs2ne : s2 ≠ [] := by
    rw [parseFloat_recon hf1]
    intro he
    exact hs3ne (List.append_eq_nil.mp he).2
  have hs1ne : s1 ≠ [] := by
    rw [← parseSp1_recon hsp1]
    intro he
    exact hs2ne (List.append_eq_nil.mp he).2
  have hs0ne : (spanP isSp s).2 ≠ [] := by
    rw [← parseSym_recon hsym]
    intro he
    exact hs1ne (List.append_eq_nil.mp he).2
  unfold parseCoordAt
  simp only [spanP_ext isSp s u hs0ne]
  simp only [parseSym_ext u hsym hs1ne]
  simp only [parseSp1_ext u hsp1 hs2ne]
  simp only [parseFloat_ext u hf1 hs3ne]
  simp only [parseSp1_ext u hg1 hs4ne]
  simp only [parseFloat_ext u hf2 hs5ne]
  simp only [parseSp1_ext u hg2 hs6ne]
  simp only [parseFloat_ext u hf3 hs7ne]
  simp only [spanP_ext isSp s7 u hsp7ne]
  simp only [head?_append_of_ne_nil hsp7ne, hnl, if_pos]
  simp only [tail_append_of_ne_nil hsp7ne, ← hr]
  rw [hpr]
  simp

/-- The characters the compiled coordinate pattern can consume before its
final newline: spaces, letters, digits, `'-'`, `'.'`.  None of them is a
newline or a brace. -/
def coreChar (c : Char) : Bool :=
  isSp c || isLetter c || isDigitCh c || c = '-' || c = '.'

theorem coreChar_ne (c : Char) (h : coreChar c = true) :
    c ≠ '\n' ∧ c ≠ lbrace ∧ c ≠ rbrace := by
  refine ⟨?_, ?_, ?_⟩ <;> intro he <;> rw [he] at h <;> revert h <;> decide

theorem isSp_core {c : Char} (h : isSp c = true) : coreChar c = true := by
  simp [coreChar, h]

theorem isLetter_core {c : Char} (h : isLetter c = true) : coreChar c = true := by
  simp [coreChar, h]

theorem isDigitCh_core {c : Char} (h : isDigitCh c = true) : coreChar c = true := by
  simp [coreChar, h]

theorem parseFloat_core {s f r : Str} (h : parseFloat s = some (f, r)) :
    ∀ c ∈ f, coreChar c = true := by
  obtain ⟨sign, d1, d2, hf, hsign, _, _, hp1, hp2⟩ := parseFloat_pieces h
  intro c hc
  rw [hf] at hc
  simp only [List.append_assoc, List.mem_append, List.mem_cons] at hc
  rcases hc with hc | hc | hc | hc
  · rcases hsign with h0 | h0 <;> rw [h0] at hc
    · simp at hc
    · simp at hc
      rw [hc]; decide
  · exact isDigitCh_core (hp1 c hc)
  · rw [hc]; decide
  · exact isDigitCh_core (hp2 c hc)

/-- Character classification of the seven groups: everything before the
final newline is a core character, and `g3` is spaces followed by the
newline. -/
theorem parseCoordAt_chars {s : Str} {pr : CoordPieces} {r : Str}
    (h : parseCoordAt s = some (pr, r)) :
    (∀ c ∈ pr.g0 ++ pr.f1 ++ pr.g1 ++ pr.f2 ++ pr.g2 ++ pr.f3, coreChar c = true) ∧
      ∃ sp, pr.g3 = sp ++ ['\n'] ∧ ∀ c ∈ sp, isSp c = true := by
  obtain ⟨sym, s1, sp1, s2, f1, s3, g1, s4, f2, s5, g2, s6, f3, s7,
    hsym, hsp1, hf1, hg1, hf2, hg2, hf3, hnl, hpr, hr⟩ := parseCoordAt_elim h
  subst hpr
  constructor
  · intro c hc
    simp only [List.append_assoc, List.mem_append] at hc
    rcases hc with hc | hc | hc | hc | hc | hc | hc | hc
    · exact isSp_core (spanP_pred isSp s c hc)
    · exact isLetter_core ((parseSym_pred hsym).2 c hc)
    · exact isSp_core ((parseSp1_pred hsp1).2 c hc)
    · exact parseFloat_core hf1 c hc
    · exact isSp_core ((parseSp1_pred hg1).2 c hc)
    · exact parseFloat_core hf2 c hc
    · exact isSp_core ((parseSp1_pred hg2).2 c hc)
    · exact parseFloat_core hf3 c hc
  · exact ⟨(spanP isSp s7).1, rfl, spanP_pred isSp s7⟩

theorem CoordPieces.flat_ne_nil {s : Str} {pr : CoordPieces} {r : Str}
    (h : parseCoordAt s = some (pr, r)) : pr.flat ≠ [] := by
  obtain ⟨_, sp, hg3, _⟩ := parseCoordAt_chars h
  rw [CoordPieces.flat]
  intro he
  have : pr.g3 = [] := (List.append_eq_nil.mp he).2
  rw [hg3] at this
  exact absurd (List.append_eq_nil.mp this).2 (by simp)

/-- `re.search` of the coordinate line pattern: try the pattern at every
start offset, left to right; return the offset of the first (leftmost)
match together with its groups and the rest of the input after the
match. -/
def coordSearchAux : Str → Option (Nat × CoordPieces × Str)
  | [] => none
  | c :: cs =>
    match parseCoordAt (c :: cs) with
    | some prr => some (0, prr)
    | none =>
      (coordSearchAux cs).map (fun x => (x.1 + 1, x.2))

/-- The line-search function handed to the block locator: leftmost match
offset of the compiled default coordinate line pattern inside a line. -/
def coordLineSearch (l : Str) : Option Nat :=
  (coordSearchAux l).map (fun x => x.1)

/-- The groups of the leftmost in-line match, as used by
`replace_coordinates_with_placeholder` (`match.groups()` of
`re.search(inverse_pattern, line)`). -/
def coordSearchPieces (l : Str) : Option CoordPieces :=
  (coordSearchAux l).map (fun x => x.2.1)

theorem coordSearchAux_full {l : Str} {pr : CoordPieces} {r : Str}
    (h : parseCoordAt l = some (pr, r)) : coordSearchAux l = some (0, pr, r) := by
  cases l with
  | nil =>
    rw [parseCoordAt] at h
    simp [spanP, parseSym, takeSym] at h
  | cons c cs =>
    rw [coordSearchAux, h]

theorem coordSearchAux_consumed :
    ∀ {l : Str} {k : Nat} {pr : CoordPieces} {r : Str},
      coordSearchAux l = some (k, pr, r) → r.length < l.length := by
  intro l
  induction l with
  | nil => intro k pr r h; cases h
  | cons c cs ih =>
    intro k pr r h
    rw [coordSearchAux] at h
    cases hp : parseCoordAt (c :: cs) with
    | some prr =>
      rw [hp] at h
      obtain ⟨pr2, r2⟩ := prr
      simp only [Option.some_inj, Prod.ext_iff] at h
      have hrec := parseCoordAt_recon hp
      have hne := CoordPieces.flat_ne_nil hp
      rw [← h.2.2]
      have hlen : (c :: cs).length = pr2.flat.length + r2.length := by
        rw [hrec, List.length_append]
      cases hfl : pr2.flat with
      | nil => exact absurd hfl hne
      | cons a as =>
        rw [hfl] at hlen
        simp only [List.length_cons] at hlen ⊢
        omega
    | none =>
      rw [hp] at h
      cases hs : coordSearchAux cs with
      | none => rw [hs] at h; cases h
      | some x =>
        rw [hs] at h
        obtain ⟨k2, pr2, r2⟩ := x
        simp only [Option.map_some', Option.some_inj, Prod.ext_iff] at h
        have hlen := ih hs
        rw [← h.2.2]
        simp only [List.length_cons]
        omega

/-- `re.findall` of the (capturing / inverse) coordinate pattern: scan
left to right, collect all non-overlapping matches, resuming after each
match.  The fuel argument only bounds the recursion; every match consumes
at least one character, so `length + 1` fuel always suffices. -/
def coordFindAllF : Nat → Str → List CoordPieces
  | 0, _ => []
  | fuel + 1, s =>
    match coordSearchAux s with
    | none => []
    | some (_, pr, rest) => pr :: coordFindAllF fuel rest

def coordFindAll (s : Str) : List CoordPieces := coordFindAllF (s.length + 1) s

theorem coordFindAllF_congr :
    ∀ (f1 : Nat) (f2 : Nat) (s : Str), s.length < f1 → s.length < f2 →
      coordFindAllF f1 s = coordFindAllF f2 s := by
  intro f1
  induction f1 with
  | zero => intro f2 s h1 _; omega
  | succ f1 ih =>
    intro f2 s h1 h2
    cases f2 with
    | zero => omega
    | succ f2 =>
      rw [coordFindAllF, coordFindAllF]
      cases hs : coordSearchAux s with
      | none => simp only [hs]
      | some x =>
        obtain ⟨k, pr, rest⟩ := x
        simp only [hs]
        have hlen := coordSearchAux_consumed hs
        rw [ih f2 rest (by omega) (by omega)]

theorem coordFindAll_nil : coordFindAll [] = [] := rfl

theorem coordFindAll_cons {x : Str} {pr : CoordPieces} (y : Str)
    (h : parseCoordAt x = some (pr, [])) :
    coordFindAll (x ++ y) = pr :: coordFindAll y := by
  have hxne : x ≠ [] := by
    have := parseCoordAt_recon h
    rw [List.append_nil] at this
    rw [this]
    exact CoordPieces.flat_ne_nil h
  have hx := parseCoordAt_ext y h
  have hs := coordSearchAux_full hx
  rw [coordFindAll, coordFindAllF]
  simp only [hs]
  have hl : (x ++ y).length = x.length + y.length := List.length_append x y
  have : y.length < (x ++ y).length := by
    cases hx2 : x with
    | nil => exact absurd hx2 hxne
    | cons a as => rw [hx2] at hl; simp only [List.length_cons] at hl; omega
  rw [coordFindAllF_congr ((x ++ y).length) (y.length + 1) y this (by omega)]
  rfl

/-- A proper physical line: some newline-free text followed by `'\n'`. -/
def NlLine (x : Str) : Prop := ∃ w, x = w ++ ['\n'] ∧ ∀ c ∈ w, c ≠ '\n'

theorem splitKeepNl_line {x : Str} (h : NlLine x) (y : Str) :
    splitKeepNl (x ++ y) = x :: splitKeepNl y := by
  obtain ⟨w, hx, hw⟩ := h
  subst hx
  induction w with
  | nil => simp [splitKeepNl]
  | cons c w ih =>
    have hc : c ≠ '\n' := hw c (by simp)
    have hw2 : ∀ d ∈ w, d ≠ '\n' := fun d hd => hw d (by simp [hd])
    have ih2 := ih hw2
    simp only [List.cons_append]
    rw [splitKeepNl, if_neg hc]
    rw [List.append_assoc] at ih2 ⊢
    rw [ih2]

theorem splitKeepNl_flatten {L : List Str} (h : ∀ x ∈ L, NlLine x) :
    splitKeepNl L.flatten = L := by
  induction L with
  | nil => rfl
  | cons x rest ih =>
    rw [List.flatten_cons, splitKeepNl_line (h x (by simp))]
    rw [ih (fun y hy => h y (by simp [hy]))]

/-- A full coordinate-pattern match is a proper physical line. -/
theorem parseCoordAt_nlline {s : Str} {pr : CoordPieces} {r : Str}
    (h : parseCoordAt s = some (pr, r)) : NlLine pr.flat := by
  obtain ⟨hcore, sp, hg3, hsp⟩ := parseCoordAt_chars h
  refine ⟨pr.g0 ++ pr.f1 ++ pr.g1 ++ pr.f2 ++ pr.g2 ++ pr.f3 ++ sp, ?_, ?_⟩
  · rw [CoordPieces.flat, hg3]
    simp [List.append_assoc]
  · intro c hc
    simp only [List.append_assoc, List.mem_append] at hc
    rcases hc with hc | hc | hc | hc | hc | hc | hc
    · exact (coreChar_ne c (hcore c (by simp [hc]))).1
    · exact (coreChar_ne c (hcore c (by simp [hc]))).1
    · exact (coreChar_ne c (hcore c (by simp [hc]))).1
    · exact (coreChar_ne c (hcore c (by simp [hc]))).1
    · exact (coreChar_ne c (hcore c (by simp [hc]))).1
    · exact (coreChar_ne c (hcore c (by simp [hc]))).1
    · exact (coreChar_ne c (isSp_core (hsp c hc))).1

/-- Structure of every block the scan emits, relative to the scanned
lines: from the idle state, a block `(s, o, e)` covers a first line `m0`
matching at offset `o` followed by full-line matches `M`.  (For the
`cand`/`run` states the start line has already been consumed; the second
disjunct accounts for that.) -/
theorem scan_mem_shape (m : Str → Option Nat) :
    ∀ (ls : List Str) (i : Nat) (st : BState) (blk : Nat × Nat × Nat),
      blk ∈ twoOrMoreScan m ls i st →
      (∃ A m0 M C, ls = A ++ m0 :: M ++ C ∧ blk.1 = i + A.length ∧
        m m0 = some blk.2.1 ∧ (∀ l ∈ M, isFull m l = true) ∧
        blk.2.2 = i + A.length + 1 + M.length) ∨
      (∃ s o, (st = .cand s o ∨ st = .run s o) ∧ blk.1 = s ∧ blk.2.1 = o ∧
        ∃ M C, ls = M ++ C ∧ (∀ l ∈ M, isFull m l = true) ∧
          blk.2.2 = i + M.length) := by
  intro ls
  induction ls with
  | nil =>
    intro i st blk hmem
    cases st with
    | idle => simp [twoOrMoreScan] at hmem
    | cand s o => simp [twoOrMoreScan] at hmem
    | run s o =>
      simp only [twoOrMoreScan, List.mem_singleton] at hmem
      subst hmem
      exact Or.inr ⟨s, o, Or.inr rfl, rfl, rfl, [], [], rfl, by simp, by simp⟩
  | cons l ls ih =>
    intro i st blk hmem
    have hstep : blk ∈ twoOrMoreScan m ls (i + 1) (dispatch m l i) →
        (∃ A m0 M C, l :: ls = A ++ m0 :: M ++ C ∧ blk.1 = i + A.length ∧
          m m0 = some blk.2.1 ∧ (∀ x ∈ M, isFull m x = true) ∧
          blk.2.2 = i + A.length + 1 + M.length) := by
      intro hm2
      rcases ih (i + 1) _ blk hm2 with ⟨A, m0, M, C, hd, h1, h2, h3, h4⟩ |
        ⟨s, o, hst, h1, h2, M, C, hd, h3, h4⟩
      · refine ⟨l :: A, m0, M, C, by rw [hd]; rfl, ?_, h2, h3, ?_⟩
        · rw [h1]; simp only [List.length_cons]; omega
        · rw [h4]; simp only [List.length_cons]; omega
      · -- the dispatched candidate became a block: `l` is its first line
        rcases hst with hst | hst
        · have : m l = some o ∧ s = i := by
            unfold dispatch at hst
            cases hml : m l with
            | none => rw [hml] at hst; cases hst
            | some o2 =>
              rw [hml] at hst
              injection hst with hs ho
              exact ⟨by rw [ho], hs.symm⟩
          refine ⟨[], l, M, C, by rw [hd]; rfl, ?_, ?_, h3, ?_⟩
          · rw [h1, this.2]; simp
          · rw [this.1, h2]
          · rw [h4, List.length_nil]
        · unfold dispatch at hst
          cases hml : m l with
          | none => rw [hml] at hst; cases hst
          | some o2 => rw [hml] at hst; cases hst
    cases st with
    | idle =>
      rw [scan_cons_idle] at hmem
      exact Or.inl (hstep hmem)
    | cand s o =>
      by_cases hf : isFull m l = true
      · rw [scan_cons_cand_full ls i s o hf] at hmem
        rcases ih (i + 1) _ blk hmem with h | ⟨s2, o2, hst, h1, h2, M, C, hd, h3, h4⟩
        · obtain ⟨A, m0, M, C, hd, h1, h2, h3, h4⟩ := h
          refine Or.inl ⟨l :: A, m0, M, C, by rw [hd]; rfl, ?_, h2, h3, ?_⟩
          · rw [h1]; simp only [List.length_cons]; omega
          · rw [h4]; simp only [List.length_cons]; omega
        · rcases hst with hst | hst
          · cases hst
          · cases hst
            refine Or.inr ⟨s, o, Or.inl rfl, h1, h2, l :: M, C, by rw [hd]; rfl, ?_, ?_⟩
            · intro x hx
              rcases List.mem_cons.mp hx with hx | hx
              · rw [hx]; exact hf
              · exact h3 x hx
            · rw [h4]; simp only [List.length_cons]; omega
      · have hf2 : isFull m l = false := by
          cases h2 : isFull m l with
          | false => rfl
          | true => exact absurd h2 hf
        rw [scan_cons_cand_nf ls i s o hf2] at hmem
        exact Or.inl (hstep hmem)
    | run s o =>
      by_cases hf : isFull m l = true
      · rw [scan_cons_run_full ls i s o hf] at hmem
        rcases ih (i + 1) _ blk hmem with h | ⟨s2, o2, hst, h1, h2, M, C, hd, h3, h4⟩
        · obtain ⟨A, m0, M, C, hd, h1, h2, h3, h4⟩ := h
          refine Or.inl ⟨l :: A, m0, M, C, by rw [hd]; rfl, ?_, h2, h3, ?_⟩
          · rw [h1]; simp only [List.length_cons]; omega
          · rw [h4]; simp only [List.length_cons]; omega
        · rcases hst with hst | hst
          · cases hst
          · cases hst
            refine Or.inr ⟨s, o, Or.inr rfl, h1, h2, l :: M, C, by rw [hd]; rfl, ?_, ?_⟩
            · intro x hx
              rcases List.mem_cons.mp hx with hx | hx
              · rw [hx]; exact hf
              · exact h3 x hx
            · rw [h4]; simp only [List.length_cons]; omega
      · have hf2 : isFull m l = false := by
          cases h2 : isFull m l with
          | false => rfl
          | true => exact absurd h2 hf
        rw [scan_cons_run_nf ls i s o hf2] at hmem
        rcases List.mem_cons.mp hmem with h | h
        · subst h
          exact Or.inr ⟨s, o, Or.inr rfl, rfl, rfl, [], l :: ls, rfl, by simp, by simp⟩
        · exact Or.inl (hstep h)

/-- The located last block, described through a decomposition of the
physical lines: preceding lines `A`, a first block line `m0` matching at
offset `o`, further full-matching block lines `M`, trailing lines `C`. -/
theorem getLastBlockMatch_shape {m : Str → Option Nat} {s : Str} {i o e : Nat}
    (h : getLastBlockMatch m s = some (i, o, e)) :
    ∃ A m0 M C, splitKeepNl s = A ++ m0 :: M ++ C ∧ i = A.length ∧
      m m0 = some o ∧ (∀ l ∈ M, isFull m l = true) ∧ e = i + 1 + M.length := by
  have hmem : (i, o, e) ∈ twoOrMoreScan m (splitKeepNl s) 0 .idle :=
    getLast?_mem_list h
  rcases scan_mem_shape m (splitKeepNl s) 0 .idle (i, o, e) hmem with
    ⟨A, m0, M, C, hd, h1, h2, h3, h4⟩ | ⟨_, _, hst, _⟩
  · refine ⟨A, m0, M, C, hd, by simpa using h1, h2, h3, ?_⟩
    simp only at h4
    simp only at h1
    omega
  · rcases hst with hst | hst <;> cases hst

theorem splitAtBlock_eq {lines : List Str} {i o e : Nat} {m0 : Str} {M : List Str}
    (hmid : (lines.drop i).take (e - i) = m0 :: M) :
    splitAtBlock lines i o e =
      ((lines.take i).flatten ++ m0.take o, m0.drop o ++ M.flatten,
        (lines.drop e).flatten) := by
  unfold splitAtBlock
  simp only [hmid]

/-- Full description of a constructed container: the physical lines
split as `A ++ m0 :: M ++ C` around the located block and the
head/body/foot slices are the corresponding character spans. -/
theorem mkCoordString_content {m : Str → Option Nat} {s : Str} {c : CoordString}
    (h : mkCoordString m s = some c) :
    ∃ A m0 M C o, splitKeepNl s = A ++ m0 :: M ++ C ∧ m m0 = some o ∧
      (∀ l ∈ M, isFull m l = true) ∧ c.string = s ∧
      c.head = A.flatten ++ m0.take o ∧
      c.body = m0.drop o ++ M.flatten ∧
      c.foot = C.flatten := by
  unfold mkCoordString at h
  cases hloc : getLastBlockMatch m s with
  | none => rw [hloc] at h; cases h
  | some blk =>
    obtain ⟨i, o, e⟩ := blk
    rw [hloc] at h
    simp only [Option.some_inj] at h
    obtain ⟨A, m0, M, C, hd, hi, hm0, hM, he⟩ := getLastBlockMatch_shape hloc
    have htake : (splitKeepNl s).take i = A := by
      rw [hd, hi, show A ++ m0 :: M ++ C = A ++ (m0 :: (M ++ C)) by simp]
      exact List.take_left A _
    have hdrop : (splitKeepNl s).drop i = m0 :: (M ++ C) := by
      rw [hd, hi, show A ++ m0 :: M ++ C = A ++ (m0 :: (M ++ C)) by simp]
      exact List.drop_left A _
    have hmid : ((splitKeepNl s).drop i).take (e - i) = m0 :: M := by
      rw [hdrop]
      have h1 : e - i = M.length + 1 := by omega
      rw [h1, List.take_succ_cons, List.take_left M C]
    have hdropE : (splitKeepNl s).drop e = C := by
      have h1 : e = (A ++ m0 :: M).length := by
        rw [List.length_append]
        simp only [List.length_cons]
        omega
      rw [hd, show A ++ m0 :: M ++ C = (A ++ m0 :: M) ++ C by simp, h1]
      exact List.drop_left _ C
    have hsplit := splitAtBlock_eq (o := o) hmid
    refine ⟨A, m0, M, C, o, hd, hm0, hM, by rw [← h], ?_, ?_, ?_⟩
    · rw [← h]
      simp only [hsplit, htake]
    · rw [← h]
      simp only [hsplit]
    · rw [← h]
      simp only [hsplit, hdropE]

/-! ## Containers and their operations -/

/-- Escaping of one character for `str.format` templates:
`string.replace('{', mk_lbrace_pair).replace('}', ...)` doubles every literal
brace (done in `XYZString.__init__` before anything else). -/
def escChar (c : Char) : Str :=
  if c = lbrace then [lbrace, lbrace]
  else if c = rbrace then [rbrace, rbrace]
  else [c]

def escapeBraces : Str → Str
  | [] => []
  | c :: cs => escChar c ++ escapeBraces cs

/-- `parse.stringtypes.CoordinateString(string)` with the default
`CoordinateFinder` (no header/footer, default line pattern): no escaping,
block location over the compiled default coordinate pattern. -/
def mkCoordinateString (s : Str) : Option CoordString :=
  mkCoordString coordLineSearch s

/-- `xyzstr.XYZString(string, XYZFinder())`: doubles braces first, then
locates the block in the escaped string; all slices refer to the escaped
string. -/
def mkXYZString (t : Str) : Option CoordString :=
  mkCoordString coordLineSearch (escapeBraces t)

/-- `line += '\n'` after `str.splitlines()`: the terminator a kept line
already has is preserved, a missing final terminator is added. -/
def ensureNl (l : Str) : Str :=
  if l.getLast? = some '\n' then l else l ++ ['\n']

/-- One iteration of the loop in
`replace_coordinates_with_placeholder`: search the inverse pattern in the
line; an unmatched line is copied unchanged, a matched line becomes
`placeholder.join(match.groups())`. -/
def substCoordLine (ph : Str) (line : Str) : Str :=
  match coordSearchPieces line with
  | none => line
  | some pr => pr.g0 ++ ph ++ pr.g1 ++ ph ++ pr.g2 ++ ph ++ pr.g3

/-- The loop of `replace_coordinates_with_placeholder` over
`self._body.splitlines()`. -/
def replaceCoordsBody (body ph : Str) : Str :=
  ((splitKeepNl body).map (fun l => substCoordLine ph (ensureNl l))).flatten

/-- `CoordinateString.replace_coordinates_with_placeholder` /
`XYZString.replace_coordinates_with_placeholder`: substituted body
between the untouched head and foot. -/
def replaceCoordsWithPlaceholder (c : CoordString) (ph : Str) : Str :=
  c.head ++ replaceCoordsBody c.body ph ++ c.foot

/-- `extract_coordinates`: `re.findall` of the value-capturing pattern
over the body; one row of three float tokens per match.  The numeric
tokens stand for the `float` values they denote (the later formatting of
those values is modelled by a token-level formatter). -/
def extractCoordRows (c : CoordString) : List (Str × Str × Str) :=
  (coordFindAll c.body).map (fun pr => (pr.f1, pr.f2, pr.f3))

/-- The extracted values flattened in row-major order
(`coordinates.flatten()` in the round-trip scenario). -/
def extractValuesFlat (c : CoordString) : List Str :=
  ((coordFindAll c.body).map (fun pr => [pr.f1, pr.f2, pr.f3])).flatten

theorem isFull_iff {m : Str → Option Nat} {l : Str} :
    isFull m l = true ↔ m l = some 0 := by
  simp [isFull]

/-- `scan_skip` wrapper that also allows the skipped stretch to be
empty. -/
theorem scan_skip_any (m : Str → Option Nat) (A Z : List Str) (i : Nat)
    (hna : noAdjMatches m false A = true)
    (hlast : ∀ l, A.getLast? = some l → m l = none) :
    twoOrMoreScan m (A ++ Z) i .idle = twoOrMoreScan m Z (i + A.length) .idle := by
  cases hA : A with
  | nil => simp
  | cons a as =>
    rw [← hA]
    refine scan_skip m A Z i false .idle (by rw [hA]; exact List.cons_ne_nil a as) hna
      ?_ (Or.inl rfl)
    intro l hl
    have := hlast l hl
    simp [lineMatches, this]

/-- Two clean qualifying runs: the scan finds exactly the two blocks. -/
theorem scan_two_runs (m : Str → Option Nat) (A R1 B R2 C : List Str)
    (hR1 : ∀ l ∈ R1, isFull m l = true) (hR1len : 2 ≤ R1.length)
    (hR2 : ∀ l ∈ R2, isFull m l = true) (hR2len : 2 ≤ R2.length)
    (hA : noAdjMatches m false A = true)
    (hAlast : ∀ l, A.getLast? = some l → m l = none)
    (hBne : B ≠ [])
    (hB : noAdjMatches m false B = true)
    (hBhead : ∀ l, B.head? = some l → m l = none)
    (hBlast : ∀ l, B.getLast? = some l → m l = none)
    (hC : noAdjMatches m false C = true)
    (hChead : ∀ l, C.head? = some l → m l = none) :
    twoOrMoreScan m (A ++ (R1 ++ (B ++ (R2 ++ C)))) 0 .idle =
      [(A.length, 0, A.length + R1.length),
       (A.length + R1.length + B.length, 0,
        A.length + R1.length + B.length + R2.length)] := by
  obtain ⟨r0, R1a, hR1d⟩ : ∃ r0 R1a, R1 = r0 :: R1a := by
    cases R1 with
    | nil => simp at hR1len
    | cons x xs => exact ⟨x, xs, rfl⟩
  obtain ⟨r1, R1b, hR1d2⟩ : ∃ r1 R1b, R1a = r1 :: R1b := by
    cases R1a with
    | nil => rw [hR1d] at hR1len; simp at hR1len
    | cons x xs => exact ⟨x, xs, rfl⟩
  obtain ⟨q0, R2a, hR2d⟩ : ∃ q0 R2a, R2 = q0 :: R2a := by
    cases R2 with
    | nil => simp at hR2len
    | cons x xs => exact ⟨x, xs, rfl⟩
  obtain ⟨q1, R2b, hR2d2⟩ : ∃ q1 R2b, R2a = q1 :: R2b := by
    cases R2a with
    | nil => rw [hR2d] at hR2len; simp at hR2len
    | cons x xs => exact ⟨x, xs, rfl⟩
  subst hR1d; subst hR1d2; subst hR2d; subst hR2d2
  have notFull_of_none : ∀ {l : Str}, m l = none → isFull m l = false := by
    intro l hl
    cases hf : isFull m l with
    | false => rfl
    | true => rw [isFull_iff.mp hf] at hl; cases hl
  have step1 := scan_skip_any m A (r0 :: r1 :: R1b ++ (B ++ (q0 :: q1 :: R2b ++ C))) 0 hA hAlast
  have hBheadNF : ∀ l lt, B ++ (q0 :: q1 :: R2b ++ C) = l :: lt → isFull m l = false := by
    intro l lt hl
    cases hBd : B with
    | nil => exact absurd hBd hBne
    | cons b bs =>
      rw [hBd] at hl
      simp only [List.cons_append, List.cons.injEq] at hl
      refine notFull_of_none (hBhead l ?_)
      rw [hBd, ← hl.1]
      rfl
  have step2 := scan_chain m r0 r1 R1b (B ++ (q0 :: q1 :: R2b ++ C)) A.length 0
    (isFull_iff.mp (hR1 r0 (by simp))) (hR1 r1 (by simp))
    (fun l hl => hR1 l (by simp [hl])) hBheadNF
  have step3 := scan_skip_any m B (q0 :: q1 :: R2b ++ C) (A.length + (r0 :: r1 :: R1b).length)
    hB hBlast
  have hCheadNF : ∀ l lt, C = l :: lt → isFull m l = false := by
    intro l lt hl
    refine notFull_of_none (hChead l ?_)
    rw [hl]
    rfl
  have step4 := scan_chain m q0 q1 R2b C (A.length + (r0 :: r1 :: R1b).length + B.length) 0
    (isFull_iff.mp (hR2 q0 (by simp))) (hR2 q1 (by simp))
    (fun l hl => hR2 l (by simp [hl])) hCheadNF
  have step5 := scan_empty m C
    (A.length + (r0 :: r1 :: R1b).length + B.length + (q0 :: q1 :: R2b).length) false .idle
    hC (Or.inl rfl)
  rw [show A ++ (r0 :: r1 :: R1b ++ (B ++ (q0 :: q1 :: R2b ++ C))) =
      A ++ ((r0 :: r1 :: R1b) ++ (B ++ (q0 :: q1 :: R2b ++ C))) by simp]
  rw [step1]
  rw [show twoOrMoreScan m (r0 :: r1 :: R1b ++ (B ++ (q0 :: q1 :: R2b ++ C)))
        (0 + A.length) BState.idle =
      twoOrMoreScan m ((r0 :: r1 :: R1b) ++ (B ++ (q0 :: q1 :: R2b ++ C)))
        A.length BState.idle by rw [Nat.zero_add]]
  rw [step2]
  rw [show B ++ (q0 :: q1 :: R2b ++ C) = B ++ ((q0 :: q1 :: R2b) ++ C) by simp]
  rw [step3]
  rw [show twoOrMoreScan m (q0 :: q1 :: R2b ++ C)
        (A.length + (r0 :: r1 :: R1b).length + B.length) BState.idle =
      twoOrMoreScan m ((q0 :: q1 :: R2b) ++ C)
        (A.length + (r0 :: r1 :: R1b).length + B.length) BState.idle by rfl]
  rw [step4, step5]

/-! ## Claim C3 -/

/-- C3: Minimum run length.  For every line finder and every text in
which every line matching (anywhere inside the line, the `re.search`
sense) the compiled line pattern is isolated - no two consecutive lines
both contain a match - the block regex `(?:L){2,}` has no match, so
`get_last_match` raises (modelled by `none`) and constructing the block
container fails with `BlockNotFoundError`; in particular a single
isolated matching line is never returned as a block. -/
theorem C3_minimum_run_length (m : Str → Option Nat) (s : Str)
    (h : noAdjMatches m false (splitKeepNl s) = true) :
    getLastBlockMatch m s = none ∧ mkCoordString m s = none := by
  have h1 : twoOrMoreScan m (splitKeepNl s) 0 .idle = [] :=
    scan_empty m _ 0 false .idle h (Or.inl rfl)
  have h2 : getLastBlockMatch m s = none := by
    rw [getLastBlockMatch, h1]
    rfl
  refine ⟨h2, ?_⟩
  rw [mkCoordString, h2]

/-- Witness for C3 at a concrete input: one full coordinate line between
non-matching lines is not located as a block. -/
theorem C3_minimum_run_length_witness :
    noAdjMatches coordLineSearch false
        (splitKeepNl ("begin text\n O 1.0 2.0 3.0\nhello there\n".data)) = true ∧
      mkCoordString coordLineSearch ("begin text\n O 1.0 2.0 3.0\nhello there\n".data) =
        none :=
  ⟨by decide, (C3_minimum_run_length coordLineSearch
    ("begin text\n O 1.0 2.0 3.0\nhello there\n".data) (by decide)).2⟩

/-! ## Claim C2 -/

/-- C2 (amended): Last-block policy under clean boundaries.  If the
physical lines split as `A ++ R1 ++ B ++ R2 ++ C` where `R1`, `R2` are
runs of at least two fully matching lines, the stretches `A`, `B`, `C`
have no two consecutive matching lines, and the lines bordering the runs
(last of `A`, first and last of `B`, first of `C`) contain no match at
all, then block location returns exactly the span of the *last* run
`R2`, not the earlier `R1`, and the container splits into
`head = A ++ R1 ++ B`, `body = R2`, `foot = C`.  (Without the
border-line condition the located block can begin mid-line inside the
line preceding `R2` - see the counterexample - which is what the
amendment adds to the original claim.) -/
theorem C2_last_block_policy (m : Str → Option Nat) (s : Str) (A R1 B R2 C : List Str)
    (hd : splitKeepNl s = A ++ (R1 ++ (B ++ (R2 ++ C))))
    (hR1 : ∀ l ∈ R1, isFull m l = true) (hR1len : 2 ≤ R1.length)
    (hR2 : ∀ l ∈ R2, isFull m l = true) (hR2len : 2 ≤ R2.length)
    (hA : noAdjMatches m false A = true)
    (hAlast : ∀ l, A.getLast? = some l → m l = none)
    (hBne : B ≠ [])
    (hB : noAdjMatches m false B = true)
    (hBhead : ∀ l, B.head? = some l → m l = none)
    (hBlast : ∀ l, B.getLast? = some l → m l = none)
    (hC : noAdjMatches m false C = true)
    (hChead : ∀ l, C.head? = some l → m l = none) :
    getLastBlockMatch m s = some (A.length + R1.length + B.length, 0,
      A.length + R1.length + B.length + R2.length) ∧
    mkCoordString m s = some ⟨s, (A ++ R1 ++ B).flatten, R2.flatten, C.flatten⟩ := by
  have hscan := scan_two_runs m A R1 B R2 C hR1 hR1len hR2 hR2len hA hAlast hBne hB
    hBhead hBlast hC hChead
  have hloc : getLastBlockMatch m s = some (A.length + R1.length + B.length, 0,
      A.length + R1.length + B.length + R2.length) := by
    rw [getLastBlockMatch, hd, hscan]
    rfl
  refine ⟨hloc, ?_⟩
  obtain ⟨q0, R2a, hR2d⟩ : ∃ q0 R2a, R2 = q0 :: R2a := by
    cases R2 with
    | nil => simp at hR2len
    | cons x xs => exact ⟨x, xs, rfl⟩
  rw [mkCoordString]
  simp only [hloc]
  have hre : splitKeepNl s = (A ++ R1 ++ B) ++ (R2 ++ C) := by rw [hd]; simp
  have hlen : A.length + R1.length + B.length = (A ++ R1 ++ B).length := by
    rw [List.length_append, List.length_append]
  have htake : (splitKeepNl s).take (A.length + R1.length + B.length) = A ++ R1 ++ B := by
    rw [hre, hlen]
    exact List.take_left _ _
  have hdrop : (splitKeepNl s).drop (A.length + R1.length + B.length) = R2 ++ C := by
    rw [hre, hlen]
    exact List.drop_left _ _
  have hmid : ((splitKeepNl s).drop (A.length + R1.length + B.length)).take
      ((A.length + R1.length + B.length + R2.length) -
        (A.length + R1.length + B.length)) = q0 :: R2a := by
    rw [hdrop, show A.length + R1.length + B.length + R2.length -
      (A.length + R1.length + B.length) = R2.length by omega, hR2d]
    exact List.take_left _ _
  have hdropE : (splitKeepNl s).drop (A.length + R1.length + B.length + R2.length) = C := by
    rw [← List.drop_drop, hdrop]
    exact List.drop_left _ _
  rw [splitAtBlock_eq hmid]
  simp only [Option.some_inj]
  rw [htake, hdropE]
  have hbody : List.drop 0 q0 ++ R2a.flatten = R2.flatten := by
    rw [hR2d]
    simp
  rw [hbody]
  have hhead : (A ++ R1 ++ B).flatten ++ List.take 0 q0 = (A ++ R1 ++ B).flatten := by
    simp
  rw [hhead]

/-- Witness for C2 at a concrete input with two clean runs: the second
run is located and becomes the body. -/
theorem C2_last_block_policy_witness :
    mkCoordString coordLineSearch
        ("aa\nO 1.0 2.0 3.0\nO 1.0 2.0 3.0\nbb\nO 4.0 5.0 6.0\nO 7.0 8.0 9.0\ncc\n".data) =
      some ⟨"aa\nO 1.0 2.0 3.0\nO 1.0 2.0 3.0\nbb\nO 4.0 5.0 6.0\nO 7.0 8.0 9.0\ncc\n".data,
        "aa\nO 1.0 2.0 3.0\nO 1.0 2.0 3.0\nbb\n".data,
        "O 4.0 5.0 6.0\nO 7.0 8.0 9.0\n".data,
        "cc\n".data⟩ := by
  have h := (C2_last_block_policy coordLineSearch
    ("aa\nO 1.0 2.0 3.0\nO 1.0 2.0 3.0\nbb\nO 4.0 5.0 6.0\nO 7.0 8.0 9.0\ncc\n".data)
    ["aa\n".data] ["O 1.0 2.0 3.0\n".data, "O 1.0 2.0 3.0\n".data] ["bb\n".data]
    ["O 4.0 5.0 6.0\n".data, "O 7.0 8.0 9.0\n".data] ["cc\n".data]
    (by decide) (by decide) (by decide) (by decide) (by decide) (by decide)
    (by decide) (by decide) (by decide) (by decide) (by decide) (by decide)
    (by decide)).2
  exact h.trans (by decide)

/-- Counterexample to C2 as stated: with two qualifying runs present, the
line `1.5 O 1.0 2.0 3.0` just before the second run has a mid-line match
of the (unanchored) line pattern at offset 3, so the located block starts
three characters *inside* that line - at span `(3, 3, 6)` - and not at
the span of the last maximal run of matching lines (`(3, 0, 6)` if that
line counts as matching, `(4, 0, 6)` if only fully matching lines count).
The container body likewise starts mid-line. -/
theorem C2_last_block_policy_counterexample :
    getLastBlockMatch coordLineSearch
        ("O 1.0 2.0 3.0\nO 1.0 2.0 3.0\nzzzz 5\n1.5 O 1.0 2.0 3.0\nO 4.0 5.0 6.0\nO 7.0 8.0 9.0\n".data) =
      some (3, 3, 6) ∧
    (3, 3, 6) ≠ (3, 0, 6) ∧ (3, 3, 6) ≠ (4, 0, 6) ∧
    (mkCoordinateString
        ("O 1.0 2.0 3.0\nO 1.0 2.0 3.0\nzzzz 5\n1.5 O 1.0 2.0 3.0\nO 4.0 5.0 6.0\nO 7.0 8.0 9.0\n".data)).map
        CoordString.body =
      some (" O 1.0 2.0 3.0\nO 4.0 5.0 6.0\nO 7.0 8.0 9.0\n".data) := by
  refine ⟨by decide, by decide, by decide, by decide⟩

/-! ## Claim C10 -/

/-- `template.py` `XYZString.__init__`: the stored string is the
brace-escaped text and the block is located in it, but the slices are
taken from the *unescaped* constructor argument and the foot is
`text[:end]` instead of `text[end:]`.  Returns
`(stored string, head, body, foot)`. -/
def mkXYZStringTemplateDraft (t : Str) : Option (Str × Str × Str × Str) :=
  match getLastBlockMatch coordLineSearch (escapeBraces t) with
  | none => none
  | some (i, o, e) =>
    some (escapeBraces t,
      t.take (((splitKeepNl (escapeBraces t)).take i).flatten.length + o),
      (t.take ((splitKeepNl (escapeBraces t)).take e).flatten.length).drop
        (((splitKeepNl (escapeBraces t)).take i).flatten.length + o),
      t.take ((splitKeepNl (escapeBraces t)).take e).flatten.length)

/-- C10: the head/body/foot partition invariant fails for `template.py`'s
`XYZString`: at the failing input below the constructor succeeds but
`head ++ body ++ foot` duplicates the head and block instead of
reproducing the stored string, because `foot` is assigned `text[:end]`
rather than `text[end:]`.  (The other containers satisfy the invariant,
see `mkCoordString_partition`.) -/
theorem C10_head_body_foot_partition :
    mkXYZStringTemplateDraft ("zz\nO 1.0 2.0 3.0\nO 4.0 5.0 6.0\nyy\n".data) =
      some ("zz\nO 1.0 2.0 3.0\nO 4.0 5.0 6.0\nyy\n".data,
        "zz\n".data,
        "O 1.0 2.0 3.0\nO 4.0 5.0 6.0\n".data,
        "zz\nO 1.0 2.0 3.0\nO 4.0 5.0 6.0\n".data) ∧
    "zz\n".data ++ "O 1.0 2.0 3.0\nO 4.0 5.0 6.0\n".data ++
        "zz\nO 1.0 2.0 3.0\nO 4.0 5.0 6.0\n".data ≠
      ("zz\nO 1.0 2.0 3.0\nO 4.0 5.0 6.0\nyy\n".data : Str) := by
  refine ⟨by decide, by decide⟩

/-! ## `str.format` and the round-trip template

`template.format(*values)` walks the template left to right: `lbrace
lbrace` and `rbrace rbrace` produce one literal brace, `lbrace spec
rbrace` consumes the next positional argument (we model the formatted
argument as a string supplied from outside), a stray single brace is an
error, as is running out of arguments; surplus arguments are ignored. -/

def fillRunSt : Str → Bool → List Str → Option (Str × List Str)
  | [], false, args => some ([], args)
  | [], true, _ => none
  | c :: rest, true, args =>
    if c = rbrace then
      match args with
      | [] => none
      | a :: args2 => (fillRunSt rest false args2).map (fun x => (a ++ x.1, x.2))
    else if c = lbrace then none
    else fillRunSt rest true args
  | c :: rest, false, args =>
    if c = lbrace then
      match rest with
      | [] => none
      | d :: rest2 =>
        if d = lbrace then
          (fillRunSt rest2 false args).map (fun x => (lbrace :: x.1, x.2))
        else
          if d = rbrace then
            match args with
            | [] => none
            | a :: args2 => (fillRunSt rest2 false args2).map (fun x => (a ++ x.1, x.2))
          else fillRunSt rest2 true args
    else if c = rbrace then
      match rest with
      | [] => none
      | d :: rest2 =>
        if d = rbrace then
          (fillRunSt rest2 false args).map (fun x => (rbrace :: x.1, x.2))
        else none
    else (fillRunSt rest false args).map (fun x => (c :: x.1, x.2))

/-- `template.format(*args)` with pre-formatted positional arguments. -/
def pyFormat (template : Str) (args : List Str) : Option Str :=
  (fillRunSt template false args).map (fun x => x.1)

def braceFree (s : Str) : Prop := ∀ c ∈ s, c ≠ lbrace ∧ c ≠ rbrace

instance : DecidablePred braceFree := fun s =>
  List.decidableBAll (fun c => c ≠ lbrace ∧ c ≠ rbrace) s

/-- A single-slot placeholder string such as the usual float format
placeholder: an opening brace, a brace-free nonempty format spec, a
closing brace. -/
def SlotPh (ph : Str) : Prop :=
  ∃ c spec, ph = lbrace :: c :: (spec ++ [rbrace]) ∧ (c ≠ lbrace ∧ c ≠ rbrace) ∧
    braceFree spec

theorem fill_esc_open (rest : Str) (args : List Str) :
    fillRunSt (lbrace :: lbrace :: rest) false args =
      (fillRunSt rest false args).map (fun x => (lbrace :: x.1, x.2)) := rfl

theorem fill_esc_close (rest : Str) (args : List Str) :
    fillRunSt (rbrace :: rbrace :: rest) false args =
      (fillRunSt rest false args).map (fun x => (rbrace :: x.1, x.2)) := rfl

theorem fill_plain {c : Char} (rest : Str) (args : List Str) (h1 : ¬c = lbrace)
    (h2 : ¬c = rbrace) :
    fillRunSt (c :: rest) false args =
      (fillRunSt rest false args).map (fun x => (c :: x.1, x.2)) := by
  conv_lhs => rw [fillRunSt.eq_def]
  simp only [h1, h2, if_false]

theorem fill_slot_enter {c : Char} (rest : Str) (args : List Str) (h1 : ¬c = lbrace)
    (h2 : ¬c = rbrace) :
    fillRunSt (lbrace :: c :: rest) false args = fillRunSt rest true args := by
  conv_lhs => rw [fillRunSt.eq_def]
  simp only [h1, h2, if_false, if_pos]

theorem fill_slot_close (rest : Str) (args : List Str) :
    fillRunSt (lbrace :: rbrace :: rest) false args =
      match args with
      | [] => none
      | a :: args2 => (fillRunSt rest false args2).map (fun x => (a ++ x.1, x.2)) := by
  cases args with
  | nil => rfl
  | cons a args2 => rfl

theorem fill_true_spec {c : Char} (rest : Str) (args : List Str) (h1 : ¬c = rbrace)
    (h2 : ¬c = lbrace) :
    fillRunSt (c :: rest) true args = fillRunSt rest true args := by
  conv_lhs => rw [fillRunSt.eq_def]
  simp only [h1, h2, if_false]

theorem fill_true_close (rest : Str) (args : List Str) :
    fillRunSt (rbrace :: rest) true args =
      match args with
      | [] => none
      | a :: args2 => (fillRunSt rest false args2).map (fun x => (a ++ x.1, x.2)) := by
  cases args with
  | nil => rfl
  | cons a args2 => rfl

theorem fillRunSt_plain (a : Str) (b : Str) (args : List Str) (h : braceFree a) :
    fillRunSt (a ++ b) false args =
      (fillRunSt b false args).map (fun x => (a ++ x.1, x.2)) := by
  induction a with
  | nil =>
    simp only [List.nil_append]
    cases hb : fillRunSt b false args with
    | none => rfl
    | some x => rfl
  | cons c a2 ih =>
    have hc := h c (by simp)
    have h2 : braceFree a2 := fun d hd => h d (by simp [hd])
    rw [List.cons_append, fill_plain (a2 ++ b) args hc.1 hc.2, ih h2]
    cases hb : fillRunSt b false args with
    | none => rfl
    | some x => rfl

theorem fillRunSt_escape (t : Str) (b : Str) (args : List Str) :
    fillRunSt (escapeBraces t ++ b) false args =
      (fillRunSt b false args).map (fun x => (t ++ x.1, x.2)) := by
  induction t with
  | nil =>
    simp only [escapeBraces, List.nil_append]
    cases hb : fillRunSt b false args with
    | none => rfl
    | some x => rfl
  | cons c t2 ih =>
    rw [show escapeBraces (c :: t2) = escChar c ++ escapeBraces t2 from rfl,
      List.append_assoc]
    by_cases hc : c = lbrace
    · rw [show escChar c = [lbrace, lbrace] by rw [hc]; rfl]
      rw [List.cons_append, List.cons_append, fill_esc_open]
      simp only [List.nil_append]
      rw [ih]
      cases hb : fillRunSt b false args with
      | none => rfl
      | some x => simp [hc]
    · by_cases hc2 : c = rbrace
      · rw [show escChar c = [rbrace, rbrace] by rw [hc2]; rfl]
        rw [List.cons_append, List.cons_append, fill_esc_close]
        simp only [List.nil_append]
        rw [ih]
        cases hb : fillRunSt b false args with
        | none => rfl
        | some x => simp [hc2]
      · rw [show escChar c = [c] by simp [escChar, hc, hc2]]
        rw [List.cons_append]
        simp only [List.nil_append]
        rw [fill_plain _ _ hc hc2, ih]
        cases hb : fillRunSt b false args with
        | none => rfl
        | some x => rfl

theorem fillRunSt_specSkip (spec : Str) (b : Str) (args : List Str)
    (h : braceFree spec) :
    fillRunSt (spec ++ rbrace :: b) true args =
      fillRunSt (rbrace :: b) true args := by
  induction spec with
  | nil => rfl
  | cons c spec2 ih =>
    have hc := h c (by simp)
    have h2 : braceFree spec2 := fun d hd => h d (by simp [hd])
    rw [List.cons_append, fill_true_spec _ _ hc.2 hc.1, ih h2]

theorem fillRunSt_slot {ph : Str} (hph : SlotPh ph) (b : Str) (a : Str)
    (args : List Str) :
    fillRunSt (ph ++ b) false (a :: args) =
      (fillRunSt b false args).map (fun x => (a ++ x.1, x.2)) := by
  obtain ⟨c, spec, hdef, hc, hspec⟩ := hph
  subst hdef
  rw [List.cons_append, List.cons_append, fill_slot_enter _ _ hc.1 hc.2]
  rw [show spec ++ [rbrace] ++ b = spec ++ rbrace :: b by simp]
  rw [fillRunSt_specSkip spec b (a :: args) hspec]
  rw [fill_true_close]

theorem escapeBraces_append (a b : Str) :
    escapeBraces (a ++ b) = escapeBraces a ++ escapeBraces b := by
  induction a with
  | nil => rfl
  | cons c a2 ih =>
    rw [List.cons_append, escapeBraces, escapeBraces, ih, List.append_assoc]

theorem escapeBraces_braceFree {t : Str} (h : braceFree t) : escapeBraces t = t := by
  induction t with
  | nil => rfl
  | cons c t2 ih =>
    have hc := h c (by simp)
    rw [escapeBraces, show escChar c = [c] by simp [escChar, hc.1, hc.2],
      ih (fun d hd => h d (by simp [hd]))]
    rfl

theorem braceFree_of_escape {t : Str} (h : braceFree (escapeBraces t)) : braceFree t := by
  induction t with
  | nil => exact fun c hc => absurd hc (by simp)
  | cons c t2 ih =>
    intro d hd
    rw [escapeBraces] at h
    rcases List.mem_cons.mp hd with hd | hd
    · subst hd
      refine ⟨?_, ?_⟩ <;> intro he <;> subst he
      · exact (h lbrace (by simp [escChar])).1 rfl
      · exact (h rbrace (by simp [escChar, show ¬(rbrace = lbrace) by decide])).2 rfl
    · exact ih (fun x hx => h x (by simp [hx])) d hd

/-- Splitting an escaped string at a position whose following character
is not a brace splits between escaped characters. -/
theorem escape_split_head :
    ∀ (t u v : Str), escapeBraces t = u ++ v →
      (∀ c, v.head? = some c → c ≠ lbrace ∧ c ≠ rbrace) →
      ∃ t1 t2, t = t1 ++ t2 ∧ escapeBraces t1 = u ∧ escapeBraces t2 = v := by
  intro t
  induction t with
  | nil =>
    intro u v h _
    have hu : u = [] := by
      cases u with
      | nil => rfl
      | cons x u2 => simp [escapeBraces] at h
    subst hu
    exact ⟨[], [], rfl, rfl, by simpa using h⟩
  | cons c t2 ih =>
    intro u v h hv
    cases u with
    | nil => exact ⟨[], c :: t2, rfl, rfl, by simpa using h⟩
    | cons x u2 =>
      by_cases hc : c = lbrace
      · subst hc
        rw [show escapeBraces (lbrace :: t2) = lbrace :: lbrace :: escapeBraces t2
          from rfl] at h
        have hx : x = lbrace := by
          have := congrArg List.head? h
          simpa using this.symm
        subst hx
        cases u2 with
        | nil =>
          exfalso
          have hveq : v = lbrace :: escapeBraces t2 := by
            have := congrArg List.tail h
            simpa using this.symm
          have := hv lbrace (by rw [hveq]; rfl)
          exact this.1 rfl
        | cons y u3 =>
          have hy : y = lbrace := by
            have := congrArg (fun l => l.tail.head?) h
            simpa using this.symm
          subst hy
          have htl : escapeBraces t2 = u3 ++ v := by
            simpa using congrArg (fun l => l.tail.tail) h
          obtain ⟨s1, s2, hs, he1, he2⟩ := ih u3 v htl hv
          exact ⟨lbrace :: s1, s2, by rw [hs]; rfl, by
            rw [show escapeBraces (lbrace :: s1) = lbrace :: lbrace :: escapeBraces s1
              from rfl, he1], he2⟩
      · by_cases hc2 : c = rbrace
        · subst hc2
          rw [show escapeBraces (rbrace :: t2) = rbrace :: rbrace :: escapeBraces t2
            from rfl] at h
          have hx : x = rbrace := by
            have := congrArg List.head? h
            simpa using this.symm
          subst hx
          cases u2 with
          | nil =>
            exfalso
            have hveq : v = rbrace :: escapeBraces t2 := by
              have := congrArg List.tail h
              simpa using this.symm
            have := hv rbrace (by rw [hveq]; rfl)
            exact this.2 rfl
          | cons y u3 =>
            have hy : y = rbrace := by
              have := congrArg (fun l => l.tail.head?) h
              simpa using this.symm
            subst hy
            have htl : escapeBraces t2 = u3 ++ v := by
              simpa using congrArg (fun l => l.tail.tail) h
            obtain ⟨s1, s2, hs, he1, he2⟩ := ih u3 v htl hv
            exact ⟨rbrace :: s1, s2, by rw [hs]; rfl, by
              rw [show escapeBraces (rbrace :: s1) = rbrace :: rbrace :: escapeBraces s1
                from rfl, he1], he2⟩
        · rw [show escapeBraces (c :: t2) = c :: escapeBraces t2 by
            simp [escapeBraces, escChar, hc, hc2]] at h
          have hx : x = c := by
            have := congrArg List.head? h
            simpa using this.symm
          have htl : escapeBraces t2 = u2 ++ v := by
            simpa using congrArg List.tail h
          obtain ⟨s1, s2, hs, he1, he2⟩ := ih u2 v htl hv
          refine ⟨c :: s1, s2, by rw [hs]; rfl, ?_, he2⟩
          rw [show escapeBraces (c :: s1) = c :: escapeBraces s1 by
            simp [escapeBraces, escChar, hc, hc2], he1, hx]

/-- Splitting an escaped string at a position whose preceding character
is not a brace also splits between escaped characters. -/
theorem escape_split_last :
    ∀ (t u v : Str), escapeBraces t = u ++ v →
      (∀ c, u.getLast? = some c → c ≠ lbrace ∧ c ≠ rbrace) →
      ∃ t1 t2, t = t1 ++ t2 ∧ escapeBraces t1 = u ∧ escapeBraces t2 = v := by
  intro t
  induction t with
  | nil =>
    intro u v h _
    have hu : u = [] := by
      cases u with
      | nil => rfl
      | cons x u2 => simp [escapeBraces] at h
    subst hu
    exact ⟨[], [], rfl, rfl, by simpa using h⟩
  | cons c t2 ih =>
    intro u v h hu
    cases u with
    | nil => exact ⟨[], c :: t2, rfl, rfl, by simpa using h⟩
    | cons x u2 =>
      by_cases hc : c = lbrace
      · subst hc
        rw [show escapeBraces (lbrace :: t2) = lbrace :: lbrace :: escapeBraces t2
          from rfl] at h
        have hx : x = lbrace := by
          have := congrArg List.head? h
          simpa using this.symm
        subst hx
        cases u2 with
        | nil =>
          exfalso
          exact (hu lbrace rfl).1 rfl
        | cons y u3 =>
          have hy : y = lbrace := by
            have := congrArg (fun l => l.tail.head?) h
            simpa using this.symm
          subst hy
          have htl : escapeBraces t2 = u3 ++ v := by
            simpa using congrArg (fun l => l.tail.tail) h
          have hu3 : ∀ c, u3.getLast? = some c → c ≠ lbrace ∧ c ≠ rbrace := by
            intro c hlc
            exact hu c (List.mem_getLast?_cons (List.mem_getLast?_cons hlc))
          obtain ⟨s1, s2, hs, he1, he2⟩ := ih u3 v htl hu3
          exact ⟨lbrace :: s1, s2, by rw [hs]; rfl, by
            rw [show escapeBraces (lbrace :: s1) = lbrace :: lbrace :: escapeBraces s1
              from rfl, he1], he2⟩
      · by_cases hc2 : c = rbrace
        · subst hc2
          rw [show escapeBraces (rbrace :: t2) = rbrace :: rbrace :: escapeBraces t2
            from rfl] at h
          have hx : x = rbrace := by
            have := congrArg List.head? h
            simpa using this.symm
          subst hx
          cases u2 with
          | nil =>
            exfalso
            exact (hu rbrace rfl).2 rfl
          | cons y u3 =>
            have hy : y = rbrace := by
              have := congrArg (fun l => l.tail.head?) h
              simpa using this.symm
            subst hy
            have htl : escapeBraces t2 = u3 ++ v := by
              simpa using congrArg (fun l => l.tail.tail) h
            have hu3 : ∀ c, u3.getLast? = some c → c ≠ lbrace ∧ c ≠ rbrace := by
              intro c hlc
              exact hu c (List.mem_getLast?_cons (List.mem_getLast?_cons hlc))
            obtain ⟨s1, s2, hs, he1, he2⟩ := ih u3 v htl hu3
            exact ⟨rbrace :: s1, s2, by rw [hs]; rfl, by
              rw [show escapeBraces (rbrace :: s1) = rbrace :: rbrace :: escapeBraces s1
                from rfl, he1], he2⟩
        · rw [show escapeBraces (c :: t2) = c :: escapeBraces t2 by
            simp [escapeBraces, escChar, hc, hc2]] at h
          have hx : x = c := by
            have := congrArg List.head? h
            simpa using this.symm
          have htl : escapeBraces t2 = u2 ++ v := by
            simpa using congrArg List.tail h
          have hu2 : ∀ d, u2.getLast? = some d → d ≠ lbrace ∧ d ≠ rbrace := by
            intro d hld
            exact hu d (List.mem_getLast?_cons hld)
          obtain ⟨s1, s2, hs, he1, he2⟩ := ih u2 v htl hu2
          refine ⟨c :: s1, s2, by rw [hs]; rfl, ?_, he2⟩
          rw [show escapeBraces (c :: s1) = c :: escapeBraces s1 by
            simp [escapeBraces, escChar, hc, hc2], he1, hx]

/-- Any newline inside the string is its last character. -/
def SingleNl (l : Str) : Prop := ∀ w1 w2, l = w1 ++ '\n' :: w2 → w2 = []

theorem splitKeepNl_mem_singleNl :
    ∀ (s : Str), ∀ l ∈ splitKeepNl s, SingleNl l := by
  intro s
  induction s with
  | nil => intro l hl; simp [splitKeepNl] at hl
  | cons c cs ih =>
    intro l hl
    rw [splitKeepNl] at hl
    by_cases hc : c = '\n'
    · rw [if_pos hc] at hl
      rcases List.mem_cons.mp hl with hl | hl
      · subst hl
        intro w1 w2 hw
        cases w1 with
        | nil => simpa using congrArg List.tail hw
        | cons a w1b =>
          exfalso
          have hlen := congrArg List.length hw
          simp only [List.length_append, List.length_cons, List.length_nil] at hlen
          omega
      · exact ih l hl
    · rw [if_neg hc] at hl
      cases hsp : splitKeepNl cs with
      | nil =>
        rw [hsp] at hl
        simp only [List.mem_singleton] at hl
        subst hl
        intro w1 w2 hw
        cases w1 with
        | nil =>
          exfalso
          exact hc (by simpa using congrArg List.head? hw)
        | cons a w1b =>
          exfalso
          have hlen := congrArg List.length hw
          simp only [List.length_append, List.length_cons, List.length_nil] at hlen
          omega
      | cons l0 ls0 =>
        rw [hsp] at hl
        rcases List.mem_cons.mp hl with hl | hl
        · subst hl
          intro w1 w2 hw
          cases w1 with
          | nil =>
            exfalso
            exact hc (by simpa using congrArg List.head? hw)
          | cons a w1b =>
            have hl0 : l0 = w1b ++ '\n' :: w2 := by
              simpa using congrArg List.tail hw
            exact ih l0 (by rw [hsp]; simp) w1b w2 hl0
        · exact ih l (by rw [hsp]; simp [hl])

/-- The search result matches the pattern at its reported offset. -/
theorem coordSearchAux_drop :
    ∀ {l : Str} {k : Nat} {pr : CoordPieces} {r : Str},
      coordSearchAux l = some (k, pr, r) → parseCoordAt (l.drop k) = some (pr, r) := by
  intro l
  induction l with
  | nil => intro k pr r h; cases h
  | cons c cs ih =>
    intro k pr r h
    rw [coordSearchAux] at h
    cases hp : parseCoordAt (c :: cs) with
    | some prr =>
      rw [hp] at h
      obtain ⟨pr2, r2⟩ := prr
      simp only [Option.some_inj, Prod.ext_iff] at h
      rw [← h.1, ← h.2.1, ← h.2.2]
      simpa using hp
    | none =>
      rw [hp] at h
      cases hs : coordSearchAux cs with
      | none => rw [hs] at h; cases h
      | some x =>
        rw [hs] at h
        obtain ⟨k2, pr2, r2⟩ := x
        simp only [Option.map_some', Option.some_inj, Prod.ext_iff] at h
        rw [← h.1, ← h.2.1, ← h.2.2]
        simpa using ih hs

/-- In a proper physical line, a successful in-line match always extends
to the end of the line. -/
theorem parse_drop_rest_nil {l : Str} {o : Nat} {pr : CoordPieces} {r : Str}
    (hsn : SingleNl l) (h : parseCoordAt (l.drop o) = some (pr, r)) : r = [] := by
  have hrec := parseCoordAt_recon h
  obtain ⟨w, hw, _⟩ := parseCoordAt_nlline h
  have hl : l = (l.take o ++ w) ++ '\n' :: r := by
    conv_lhs => rw [← List.take_append_drop o l, hrec, hw]
    simp
  exact hsn _ _ hl

theorem braceFree_flat {s : Str} {pr : CoordPieces} {r : Str}
    (h : parseCoordAt s = some (pr, r)) : braceFree pr.flat := by
  obtain ⟨hcore, sp, hg3, hsp⟩ := parseCoordAt_chars h
  intro c hc
  rw [CoordPieces.flat] at hc
  simp only [List.append_assoc, List.mem_append] at hc
  rcases hc with hc | hc | hc | hc | hc | hc | hc
  · exact (coreChar_ne c (hcore c (by simp [hc]))).2
  · exact (coreChar_ne c (hcore c (by simp [hc]))).2
  · exact (coreChar_ne c (hcore c (by simp [hc]))).2
  · exact (coreChar_ne c (hcore c (by simp [hc]))).2
  · exact (coreChar_ne c (hcore c (by simp [hc]))).2
  · exact (coreChar_ne c (hcore c (by simp [hc]))).2
  · rw [hg3] at hc
    rcases List.mem_append.mp hc with hc | hc
    · exact (coreChar_ne c (isSp_core (hsp c hc))).2
    · have : c = '\n' := by simpa using hc
      subst this
      exact ⟨by decide, by decide⟩

theorem ensureNl_nlline {l : Str} (h : NlLine l) : ensureNl l = l := by
  obtain ⟨w, hw, _⟩ := h
  rw [ensureNl, if_pos]
  rw [hw]
  exact List.getLast?_concat w

/-! ## Round-trip infrastructure: structure of a located body -/

/-- The placeholder-substituted form of a fully parsed line
(`placeholder.join(match.groups())` for its inverse-pattern match). -/
def subLine (ph : Str) (pr : CoordPieces) : Str :=
  pr.g0 ++ ph ++ pr.g1 ++ ph ++ pr.g2 ++ ph ++ pr.g3

/-- The three numeric tokens of one parsed line, in pattern order. -/
def rowVals (pr : CoordPieces) : List Str := [pr.f1, pr.f2, pr.f3]

theorem head?_mem_list {A : Type} {l : List A} {x : A} (h : l.head? = some x) :
    x ∈ l := by
  cases l with
  | nil => cases h
  | cons a as =>
    simp only [List.head?_cons, Option.some_inj] at h
    rw [← h]
    exact List.mem_cons_self a as

/-- Turn per-line parse facts into a pieces list covering the lines. -/
theorem lines_pieces :
    ∀ (M : List Str),
      (∀ l ∈ M, ∃ pr : CoordPieces, l = pr.flat ∧ parseCoordAt pr.flat = some (pr, [])) →
      ∃ L : List CoordPieces, M = L.map CoordPieces.flat ∧
        ∀ pr ∈ L, parseCoordAt pr.flat = some (pr, []) := by
  intro M
  induction M with
  | nil => intro _; exact ⟨[], rfl, by intro pr hpr; cases hpr⟩
  | cons l M2 ih =>
    intro h
    obtain ⟨pr, hl, hp⟩ := h l (by simp)
    obtain ⟨L2, hM2, hL2⟩ := ih (fun x hx => h x (by simp [hx]))
    refine ⟨pr :: L2, ?_, ?_⟩
    · rw [List.map_cons, ← hM2, ← hl]
    · intro q hq
      rcases List.mem_cons.mp hq with hq | hq
      · rw [hq]; exact hp
      · exact hL2 q hq

/-- Every physical line of the body of a constructed container parses
fully against the inverse pattern: the first line from its match offset
onward, the remaining lines in full. -/
theorem body_pieces {s : Str} {c : CoordString}
    (h : mkCoordString coordLineSearch s = some c) :
    ∃ L : List CoordPieces, L ≠ [] ∧
      c.body = (L.map CoordPieces.flat).flatten ∧
      ∀ pr ∈ L, parseCoordAt pr.flat = some (pr, []) := by
  obtain ⟨A, m0, M, C, o, hd, hm0, hM, hstr, hhead, hbody, hfoot⟩ :=
    mkCoordString_content h
  have hm0mem : m0 ∈ splitKeepNl s := by rw [hd]; simp
  have hsn0 : SingleNl m0 := splitKeepNl_mem_singleNl s m0 hm0mem
  obtain ⟨k0, pr0, r0, hs0⟩ : ∃ k0 pr0 r0, coordSearchAux m0 = some (k0, pr0, r0) := by
    rw [coordLineSearch] at hm0
    cases hx : coordSearchAux m0 with
    | none => rw [hx] at hm0; cases hm0
    | some x =>
      obtain ⟨k, pr, r⟩ := x
      exact ⟨k, pr, r, rfl⟩
  have hk0 : k0 = o := by
    rw [coordLineSearch, hs0] at hm0
    simpa using hm0
  have hp0 : parseCoordAt (m0.drop o) = some (pr0, r0) := by
    rw [← hk0]; exact coordSearchAux_drop hs0
  have hr0 : r0 = [] := parse_drop_rest_nil hsn0 hp0
  subst hr0
  have hdrop0 : m0.drop o = pr0.flat := by
    have := parseCoordAt_recon hp0
    simpa using this
  have hp0f : parseCoordAt pr0.flat = some (pr0, []) := by rw [← hdrop0]; exact hp0
  have hMf : ∀ l ∈ M, ∃ pr : CoordPieces, l = pr.flat ∧
      parseCoordAt pr.flat = some (pr, []) := by
    intro l hl
    have hmem : l ∈ splitKeepNl s := by rw [hd]; simp [hl]
    have hsn : SingleNl l := splitKeepNl_mem_singleNl s l hmem
    have hfull := hM l hl
    rw [isFull_iff] at hfull
    obtain ⟨pr, r, hsx⟩ : ∃ pr r, coordSearchAux l = some (0, pr, r) := by
      rw [coordLineSearch] at hfull
      cases hx : coordSearchAux l with
      | none => rw [hx] at hfull; cases hfull
      | some x =>
        obtain ⟨k, pr, r⟩ := x
        rw [hx] at hfull
        simp only [Option.map_some', Option.some_inj] at hfull
        exact ⟨pr, r, by rw [hfull]⟩
    have hp : parseCoordAt l = some (pr, r) := by
      have := coordSearchAux_drop hsx
      simpa using this
    have hr : r = [] := parse_drop_rest_nil (o := 0) hsn (by simpa using hp)
    subst hr
    have hfl : l = pr.flat := by
      have := parseCoordAt_recon hp
      simpa using this
    exact ⟨pr, hfl, by rw [← hfl]; exact hp⟩
  obtain ⟨LM, hLM, hLMp⟩ := lines_pieces M hMf
  refine ⟨pr0 :: LM, by simp, ?_, ?_⟩
  · rw [hbody, hdrop0, hLM, List.map_cons, List.flatten_cons]
  · intro q hq
    rcases List.mem_cons.mp hq with hq | hq
    · rw [hq]; exact hp0f
    · exact hLMp q hq

/-- `re.findall` of the capturing pattern over a body made of fully
parsed lines returns exactly the per-line pieces. -/
theorem coordFindAll_flatten :
    ∀ (L : List CoordPieces), (∀ pr ∈ L, parseCoordAt pr.flat = some (pr, [])) →
      coordFindAll (L.map CoordPieces.flat).flatten = L := by
  intro L
  induction L with
  | nil => intro _; exact coordFindAll_nil
  | cons pr L2 ih =>
    intro h
    rw [List.map_cons, List.flatten_cons,
      coordFindAll_cons _ (h pr (by simp)), ih (fun q hq => h q (by simp [hq]))]

theorem splitKeepNl_pieces {L : List CoordPieces}
    (h : ∀ pr ∈ L, parseCoordAt pr.flat = some (pr, [])) :
    splitKeepNl (L.map CoordPieces.flat).flatten = L.map CoordPieces.flat := by
  apply splitKeepNl_flatten
  intro x hx
  obtain ⟨pr, hpr, hx2⟩ := List.mem_map.mp hx
  rw [← hx2]
  exact parseCoordAt_nlline (h pr hpr)

theorem braceFree_flatten {L : List CoordPieces}
    (h : ∀ pr ∈ L, parseCoordAt pr.flat = some (pr, [])) :
    braceFree (L.map CoordPieces.flat).flatten := by
  intro c hc
  rw [List.mem_flatten] at hc
  obtain ⟨l, hl, hcl⟩ := hc
  obtain ⟨pr, hpr, hl2⟩ := List.mem_map.mp hl
  rw [← hl2] at hcl
  exact braceFree_flat (h pr hpr) c hcl

/-- One loop iteration on a fully parsed line: the line keeps its
newline (`ensureNl` is the identity) and the match substitutes the
placeholder for the three numeric tokens. -/
theorem substCoordLine_flat {pr : CoordPieces}
    (h : parseCoordAt pr.flat = some (pr, [])) (ph : Str) :
    substCoordLine ph (ensureNl pr.flat) = subLine ph pr := by
  rw [ensureNl_nlline (parseCoordAt_nlline h)]
  have hs := coordSearchAux_full h
  simp only [substCoordLine, coordSearchPieces, hs, Option.map_some']
  rfl

theorem replaceCoordsBody_flat {L : List CoordPieces} (ph : Str)
    (h : ∀ pr ∈ L, parseCoordAt pr.flat = some (pr, [])) :
    replaceCoordsBody (L.map CoordPieces.flat).flatten ph =
      (L.map (subLine ph)).flatten := by
  rw [replaceCoordsBody, splitKeepNl_pieces h, List.map_map]
  congr 1
  apply List.map_congr_left
  intro pr hpr
  simp only [Function.comp_apply]
  exact substCoordLine_flat (h pr hpr) ph

/-- Filling one substituted line consumes its three tokens and, when the
supplied tokens are the ones extracted from the line, reproduces the
line. -/
theorem fill_subst_line {ph : Str} (hph : SlotPh ph) (pr : CoordPieces)
    (hfree : braceFree pr.flat) (b : Str) (args : List Str) :
    fillRunSt (subLine ph pr ++ b) false (pr.f1 :: pr.f2 :: pr.f3 :: args) =
      (fillRunSt b false args).map (fun x => (pr.flat ++ x.1, x.2)) := by
  have h0 : braceFree pr.g0 := fun c hc => hfree c (by rw [CoordPieces.flat]; simp [hc])
  have h1 : braceFree pr.g1 := fun c hc => hfree c (by rw [CoordPieces.flat]; simp [hc])
  have h2 : braceFree pr.g2 := fun c hc => hfree c (by rw [CoordPieces.flat]; simp [hc])
  have h3 : braceFree pr.g3 := fun c hc => hfree c (by rw [CoordPieces.flat]; simp [hc])
  rw [show subLine ph pr ++ b =
      pr.g0 ++ (ph ++ (pr.g1 ++ (ph ++ (pr.g2 ++ (ph ++ (pr.g3 ++ b)))))) by
    rw [subLine]; simp [List.append_assoc]]
  rw [fillRunSt_plain _ _ _ h0, fillRunSt_slot hph, fillRunSt_plain _ _ _ h1,
    fillRunSt_slot hph, fillRunSt_plain _ _ _ h2, fillRunSt_slot hph,
    fillRunSt_plain _ _ _ h3]
  cases hb : fillRunSt b false args with
  | none => rfl
  | some x =>
    simp only [Option.map_some']
    rw [CoordPieces.flat]
    simp [List.append_assoc]

/-- Filling the whole substituted body against the extracted values,
line by line. -/
theorem fill_subst_body {ph : Str} (hph : SlotPh ph) :
    ∀ (L : List CoordPieces), (∀ pr ∈ L, braceFree pr.flat) →
      ∀ (b : Str) (args : List Str),
      fillRunSt ((L.map (subLine ph)).flatten ++ b) false
          ((L.map rowVals).flatten ++ args) =
        (fillRunSt b false args).map
          (fun x => ((L.map CoordPieces.flat).flatten ++ x.1, x.2)) := by
  intro L
  induction L with
  | nil =>
    intro _ b args
    simp only [List.map_nil, List.flatten_nil, List.nil_append]
    cases hb : fillRunSt b false args with
    | none => rfl
    | some x => rfl
  | cons pr L2 ih =>
    intro h b args
    simp only [List.map_cons, List.flatten_cons, rowVals, List.append_assoc,
      List.cons_append, List.nil_append]
    rw [fill_subst_line hph pr (h pr (by simp))]
    rw [ih (fun q hq => h q (by simp [hq])) b args]
    cases hb : fillRunSt b false args with
    | none => rfl
    | some x => simp [List.append_assoc]

/-- C1: Round trip for `xyzstr.XYZString`.  The claim as stated (exact
reproduction for every valid placeholder pattern and arbitrary float
values) fails because `str.format` renders each float according to the
placeholder's format spec, which in general differs from the original
token (see the counterexample).  The amended statement adds the
faithful-formatting hypothesis: when the formatted rendering of every
extracted value equals its original token, filling the template produced
by `replace_coordinates_with_placeholder` with the extracted values
reproduces the original (pre-escaping) text exactly — including
whitespace, literal braces and non-numeric content. -/
theorem C1_round_trip (t : Str) (c : CoordString) (ph : Str) (fmt : Str → Str)
    (hc : mkXYZString t = some c) (hph : SlotPh ph)
    (hfmt : ∀ f ∈ extractValuesFlat c, fmt f = f) :
    pyFormat (replaceCoordsWithPlaceholder c ph)
        ((extractValuesFlat c).map fmt) = some t := by
  have hc' : mkCoordString coordLineSearch (escapeBraces t) = some c := hc
  obtain ⟨L, hLne, hbody, hLp⟩ := body_pieces hc'
  have hfree : ∀ pr ∈ L, braceFree pr.flat := fun pr hpr => braceFree_flat (hLp pr hpr)
  have hbfree : braceFree c.body := by rw [hbody]; exact braceFree_flatten hLp
  have hvals : extractValuesFlat c = (L.map rowVals).flatten := by
    rw [extractValuesFlat, hbody, coordFindAll_flatten L hLp]
    rfl
  have hargs : (extractValuesFlat c).map fmt = extractValuesFlat c := by
    have h1 : (extractValuesFlat c).map fmt = (extractValuesFlat c).map (fun x => x) :=
      List.map_congr_left hfmt
    simpa using h1
  obtain ⟨hstr, hpart⟩ := mkCoordString_partition hc'
  have hsplit1 : escapeBraces t = c.head ++ (c.body ++ c.foot) := by
    rw [← List.append_assoc, hpart, hstr]
  have hbodyne : c.body ≠ [] := by
    obtain ⟨pr, L2, hL⟩ : ∃ pr L2, L = pr :: L2 := by
      cases hLd : L with
      | nil => exact absurd hLd hLne
      | cons a as => exact ⟨a, as, rfl⟩
    rw [hbody, hL, List.map_cons, List.flatten_cons]
    intro hcontr
    apply CoordPieces.flat_ne_nil (hLp pr (by rw [hL]; simp))
    cases hflat : pr.flat with
    | nil => rfl
    | cons a as =>
      rw [hflat, List.cons_append] at hcontr
      exact List.noConfusion hcontr
  have hcond1 : ∀ ch, (c.body ++ c.foot).head? = some ch → ch ≠ lbrace ∧ ch ≠ rbrace := by
    intro ch hch
    rw [head?_append_of_ne_nil hbodyne] at hch
    exact hbfree ch (head?_mem_list hch)
  obtain ⟨t1, t23, ht, he1, he23⟩ :=
    escape_split_head t c.head (c.body ++ c.foot) hsplit1 hcond1
  have hcond2 : ∀ ch, c.body.getLast? = some ch → ch ≠ lbrace ∧ ch ≠ rbrace := by
    intro ch hch
    exact hbfree ch (getLast?_mem_list hch)
  obtain ⟨t2, t3, ht23, he2, he3⟩ := escape_split_last t23 c.body c.foot he23 hcond2
  have ht2 : t2 = c.body := by
    have hb2 : braceFree t2 := braceFree_of_escape (by rw [he2]; exact hbfree)
    rw [← he2, escapeBraces_braceFree hb2]
  have hsub : replaceCoordsBody c.body ph = (L.map (subLine ph)).flatten := by
    rw [hbody, replaceCoordsBody_flat ph hLp]
  rw [replaceCoordsWithPlaceholder, hsub, hargs, hvals, ← he1, ← he3, pyFormat]
  rw [List.append_assoc, fillRunSt_escape]
  rw [show (L.map rowVals).flatten = (L.map rowVals).flatten ++ [] by
    rw [List.append_nil]]
  rw [fill_subst_body hph L hfree]
  rw [show escapeBraces t3 = escapeBraces t3 ++ [] by rw [List.append_nil]]
  rw [fillRunSt_escape]
  rw [show fillRunSt ([] : Str) false ([] : List Str) = some ([], []) from rfl]
  simp only [Option.map_some']
  rw [ht, ht23, ht2, hbody]
  simp [List.append_assoc]

/-- A text with a literal brace above its coordinate block. -/
def C1t : Str := "x\x7by\nO 1.5 2.5 3.5\nO 4.5 5.5 6.5\n".data

/-- The container `xyzstr.XYZString(C1t, XYZFinder())` builds: the
stored string is the escaped text and the block covers its last two
lines. -/
def C1c : CoordString :=
  ⟨"x\x7b\x7by\nO 1.5 2.5 3.5\nO 4.5 5.5 6.5\n".data,
   "x\x7b\x7by\n".data,
   "O 1.5 2.5 3.5\nO 4.5 5.5 6.5\n".data,
   []⟩

/-- The placeholder `'\x7b:.12f\x7d'` (fixed 12-digit float format). -/
def ph12 : Str := lbrace :: ':' :: (".12f".data ++ [rbrace])

theorem C1_round_trip_witness :
    mkXYZString C1t = some C1c ∧
    pyFormat (replaceCoordsWithPlaceholder C1c ph12)
        ((extractValuesFlat C1c).map (fun v => v)) = some C1t :=
  ⟨by decide,
   C1_round_trip C1t C1c ph12 (fun v => v) (by decide)
     ⟨':', ".12f".data, rfl, by decide, by decide⟩ (fun f _ => rfl)⟩

/-- Token-level model of `'\x7b:.12f\x7d'.format(float(tok))` for plain
decimal tokens with at most twelve fractional digits: the fractional part
is zero-padded on the right to twelve digits (no rounding occurs for such
tokens, so this is exact for them). -/
def fmtFixed12 (tok : Str) : Str :=
  match spanP (fun c => !(c == '.')) tok with
  | (ip, r) =>
    match r with
    | '.' :: frac => ip ++ '.' :: (frac ++ List.replicate (12 - frac.length) '0')
    | _ => ip ++ '.' :: List.replicate 12 '0'

/-- The text `C1t` after template round-trip with the fixed-precision
placeholder: every token is padded to twelve fractional digits. -/
def C1filled : Str :=
  ("x\x7by\nO 1.500000000000 2.500000000000 3.500000000000\n" ++
   "O 4.500000000000 5.500000000000 6.500000000000\n").data

/-- C1 counterexample: with the fixed-precision placeholder
`'\x7b:.12f\x7d'` (the very placeholder style the repository uses), the
filled template pads `1.5` to `1.500000000000`, so it differs from the
original text: the round trip is not exact for every valid placeholder
pattern and arbitrary float values. -/
theorem C1_round_trip_counterexample :
    (mkXYZString C1t).map (fun c =>
        pyFormat (replaceCoordsWithPlaceholder c ph12)
          ((extractValuesFlat c).map fmtFixed12)) = some (some C1filled) ∧
    C1filled ≠ C1t := by
  constructor
  · decide
  · decide

/-! ## C9: pass-through of lines the inverse pattern cannot parse -/

/-- C9: In `replace_coordinates_with_placeholder`, each body line gets
its trailing newline restored and is searched with the inverse capturing
pattern.  A line with no match is copied to the output unchanged
(newline included); a line that parses fully is exactly the
concatenation of its seven groups, and its output replaces precisely the
three numeric tokens by the placeholder, leaving every other character
of the line in place. -/
theorem C9_malformed_line_passthrough (ph : Str) :
    (∀ l, coordSearchPieces l = none → substCoordLine ph l = l) ∧
    (∀ l pr, parseCoordAt l = some (pr, []) →
      l = pr.g0 ++ pr.f1 ++ pr.g1 ++ pr.f2 ++ pr.g2 ++ pr.f3 ++ pr.g3 ∧
      substCoordLine ph l =
        pr.g0 ++ ph ++ pr.g1 ++ ph ++ pr.g2 ++ ph ++ pr.g3) ∧
    (∀ body, replaceCoordsBody body ph =
      ((splitKeepNl body).map (fun l => substCoordLine ph (ensureNl l))).flatten) := by
  refine ⟨?_, ?_, fun body => rfl⟩
  · intro l hnone
    simp only [substCoordLine, hnone]
  · intro l pr hp
    have hl : l = pr.g0 ++ pr.f1 ++ pr.g1 ++ pr.f2 ++ pr.g2 ++ pr.f3 ++ pr.g3 := by
      have := parseCoordAt_recon hp
      rw [List.append_nil] at this
      rw [this, CoordPieces.flat]
    refine ⟨hl, ?_⟩
    have hs := coordSearchAux_full hp
    simp only [substCoordLine, coordSearchPieces, hs, Option.map_some']

/-- A well-formed coordinate line and its parsed groups. -/
def C9good : Str := "O 1.0 2.0 3.0\n".data

def C9pr : CoordPieces :=
  ⟨"O ".data, "1.0".data, " ".data, "2.0".data, " ".data, "3.0".data, "\n".data⟩

/-- A line the inverse pattern does not match anywhere. -/
def C9bad : Str := "total = yes\n".data

def C9ph : Str := "PH".data

theorem C9_malformed_line_passthrough_witness :
    substCoordLine C9ph C9bad = C9bad ∧
    C9good = C9pr.g0 ++ C9pr.f1 ++ C9pr.g1 ++ C9pr.f2 ++ C9pr.g2 ++
      C9pr.f3 ++ C9pr.g3 ∧
    substCoordLine C9ph C9good =
      C9pr.g0 ++ C9ph ++ C9pr.g1 ++ C9ph ++ C9pr.g2 ++ C9ph ++ C9pr.g3 :=
  ⟨(C9_malformed_line_passthrough C9ph).1 C9bad (by decide),
   ((C9_malformed_line_passthrough C9ph).2.1 C9good C9pr (by decide)).1,
   ((C9_malformed_line_passthrough C9ph).2.1 C9good C9pr (by decide)).2⟩

/-! ## Python `in` / `str.count` and the placeholder checks -/

/-- Does `pat` occur at the very start of the string (second argument)? -/
def beginsWith : Str → Str → Bool
  | [], _ => true
  | _ :: _, [] => false
  | c :: ps, d :: ss => if d = c then beginsWith ps ss else false

/-- Python `pat in s` for a nonempty `pat`: occurrence at some offset. -/
def containsSub : Str → Str → Bool
  | [], pat => beginsWith pat []
  | c :: cs, pat => beginsWith pat (c :: cs) || containsSub cs pat

/-- Python `s.count(pat)` for a nonempty `pat`: non-overlapping
occurrences, scanning left to right and resuming after each match.  The
fuel only bounds the recursion; `length + 1` always suffices. -/
def countSubF : Nat → Str → Str → Nat
  | 0, _, _ => 0
  | fuel + 1, s, pat =>
    match s with
    | [] => 0
    | c :: cs =>
      if beginsWith pat (c :: cs) then
        1 + countSubF fuel (List.drop (pat.length - 1) cs) pat
      else countSubF fuel cs pat

def countSub (s pat : Str) : Nat := countSubF (s.length + 1) s pat

theorem countSubF_zero_iff :
    ∀ (fuel : Nat) (s pat : Str), pat ≠ [] → s.length < fuel →
      (countSubF fuel s pat = 0 ↔ containsSub s pat = false) := by
  intro fuel
  induction fuel with
  | zero => intro s pat _ h; omega
  | succ fuel ih =>
    intro s pat hp hlen
    cases s with
    | nil =>
      cases pat with
      | nil => exact absurd rfl hp
      | cons c ps => simp [countSubF, containsSub, beginsWith]
    | cons c cs =>
      simp only [countSubF]
      by_cases hb : beginsWith pat (c :: cs) = true
      · simp [containsSub, hb]
      · have hb2 : beginsWith pat (c :: cs) = false := by
          cases hx : beginsWith pat (c :: cs) with
          | true => exact absurd hx hb
          | false => rfl
        simp only [hb2, if_false, containsSub, Bool.false_or]
        exact ih cs pat hp (by simp only [List.length_cons] at hlen; omega)

theorem containsSub_of_count {s pat : Str} (hp : pat ≠ []) (h : countSub s pat = 1) :
    containsSub s pat = true := by
  cases hx : containsSub s pat with
  | true => rfl
  | false =>
    have h0 := (countSubF_zero_iff (s.length + 1) s pat hp (by omega)).mpr hx
    rw [countSub] at h
    omega

/-- Which validation branch of `PlaceholderPattern.__init__` rejected a
placeholder. -/
inductive PhCheckError where
  | notFound (ph : Str)
  | repeated (ph : Str)
deriving Repr, DecidableEq

instance {E A : Type} [DecidableEq E] [DecidableEq A] : DecidableEq (Except E A) :=
  fun a b =>
  match a, b with
  | .error e1, .error e2 =>
    if h : e1 = e2 then isTrue (by rw [h])
    else isFalse (by intro hc; injection hc; exact h (by assumption))
  | .ok x, .ok y =>
    if h : x = y then isTrue (by rw [h])
    else isFalse (by intro hc; injection hc; exact h (by assumption))
  | .error _, .ok _ => isFalse (by intro hc; exact Except.noConfusion hc)
  | .ok _, .error _ => isFalse (by intro hc; exact Except.noConfusion hc)

/-- The placeholder validation loop of
`newparser.PlaceholderPattern.__init__`: a declared placeholder that is
absent from the pattern raises, and one whose count is not exactly one
raises. -/
def placeholderPatternCheck (pattern : Str) : List Str → Except PhCheckError Unit
  | [] => .ok ()
  | ph :: phs =>
    if containsSub pattern ph = false then
      .error (PhCheckError.notFound ph)
    else if countSub pattern ph ≠ 1 then
      .error (PhCheckError.repeated ph)
    else placeholderPatternCheck pattern phs

/-- Required placeholders of `rehelper.CoordinateLineFinder`. -/
def coordPlaceholders : List Str :=
  ["@Atom".data, "@XCoord".data, "@YCoord".data, "@ZCoord".data]

/-- Required placeholders of `rehelper.GradientLineFinder`. -/
def gradPlaceholders : List Str :=
  ["@XGrad".data, "@YGrad".data, "@ZGrad".data]

/-- The `__init__` validation of the line finders:
`all(placeholder in pattern for placeholder in placeholders)` — a pure
presence test. -/
def lineFinderCheck (phs : List Str) (pattern : Str) : Bool :=
  phs.all (fun ph => containsSub pattern ph)

theorem placeholderPatternCheck_ok_iff (pattern : Str) :
    ∀ (phs : List Str), (∀ ph ∈ phs, ph ≠ []) →
      (placeholderPatternCheck pattern phs = .ok () ↔
        ∀ ph ∈ phs, countSub pattern ph = 1) := by
  intro phs
  induction phs with
  | nil => intro _; simp [placeholderPatternCheck]
  | cons ph phs ih =>
    intro hne
    rw [placeholderPatternCheck]
    by_cases hc : containsSub pattern ph = false
    · rw [if_pos hc]
      constructor
      · intro h; exact absurd h (by simp)
      · intro h
        exfalso
        have h1 := h ph (by simp)
        have h2 := containsSub_of_count (hne ph (by simp)) h1
        rw [h2] at hc
        exact Bool.noConfusion hc
    · rw [if_neg hc]
      by_cases hcount : countSub pattern ph ≠ 1
      · rw [if_pos hcount]
        constructor
        · intro h; exact absurd h (by simp)
        · intro h; exact absurd (h ph (by simp)) hcount
      · rw [if_neg hcount]
        push_neg at hcount
        rw [ih (fun q hq => hne q (by simp [hq]))]
        constructor
        · intro h q hq
          rcases List.mem_cons.mp hq with hq | hq
          · rw [hq]; exact hcount
          · exact h q hq
        · intro h q hq
          exact h q (by simp [hq])

/-- C5: The exactly-once placeholder invariant holds for
`newparser.PlaceholderPattern` — its construction succeeds precisely
when every declared placeholder occurs exactly once in the pattern, and
it fails on both missing and repeated placeholders.  The line finders of
`parse/rehelper.py`, however, only test *presence*
(`placeholder in pattern`): construction succeeds iff every required
placeholder occurs at least once, so a repeated placeholder is accepted
(see the counterexample). -/
theorem C5_exactly_once (pattern : Str) (phs : List Str)
    (hne : ∀ ph ∈ phs, ph ≠ []) :
    (placeholderPatternCheck pattern phs = .ok () ↔
      ∀ ph ∈ phs, countSub pattern ph = 1) ∧
    (lineFinderCheck coordPlaceholders pattern = true ↔
      ∀ ph ∈ coordPlaceholders, containsSub pattern ph = true) ∧
    (lineFinderCheck gradPlaceholders pattern = true ↔
      ∀ ph ∈ gradPlaceholders, containsSub pattern ph = true) := by
  refine ⟨placeholderPatternCheck_ok_iff pattern phs hne, ?_, ?_⟩
  · simp [lineFinderCheck, List.all_eq_true]
  · simp [lineFinderCheck, List.all_eq_true]

/-- The default coordinate line pattern. -/
def C5pat : Str := " *@Atom +@XCoord +@YCoord +@ZCoord *\n".data

theorem C5_exactly_once_witness :
    placeholderPatternCheck C5pat coordPlaceholders = .ok () ∧
    lineFinderCheck coordPlaceholders C5pat = true :=
  ⟨(C5_exactly_once C5pat coordPlaceholders (by decide)).1.mpr (by decide),
   (C5_exactly_once C5pat coordPlaceholders (by decide)).2.1.mpr (by decide)⟩

/-- A pattern in which the declared placeholder `@Atom` occurs twice. -/
def C5rep : Str := " *@Atom @Atom +@XCoord +@YCoord +@ZCoord *\n".data

/-- C5 counterexample: `CoordinateLineFinder.__init__` accepts a pattern
in which `@Atom` occurs twice (its check is mere presence), although the
placeholder does not occur exactly once — `PlaceholderPattern` rejects
the same pattern as repeated. -/
theorem C5_exactly_once_counterexample :
    lineFinderCheck coordPlaceholders C5rep = true ∧
    countSub C5rep "@Atom".data = 2 ∧
    placeholderPatternCheck C5rep coordPlaceholders =
      .error (PhCheckError.repeated "@Atom".data) := by
  refine ⟨by decide, by decide, by decide⟩

/-- C8: A line-finder pattern that omits one of its required
placeholders fails the `__init__` presence check, so construction raises
`PatternDefinitionError` before any text can be processed. -/
theorem C8_malformed_rejection (pattern : Str) :
    ((∃ ph ∈ coordPlaceholders, containsSub pattern ph = false) →
      lineFinderCheck coordPlaceholders pattern = false) ∧
    ((∃ ph ∈ gradPlaceholders, containsSub pattern ph = false) →
      lineFinderCheck gradPlaceholders pattern = false) := by
  constructor
  · intro h
    obtain ⟨ph, hmem, hfalse⟩ := h
    cases hx : lineFinderCheck coordPlaceholders pattern with
    | false => rfl
    | true =>
      exfalso
      simp only [lineFinderCheck, List.all_eq_true] at hx
      have h2 := hx ph hmem
      rw [hfalse] at h2
      exact Bool.noConfusion h2
  · intro h
    obtain ⟨ph, hmem, hfalse⟩ := h
    cases hx : lineFinderCheck gradPlaceholders pattern with
    | false => rfl
    | true =>
      exfalso
      simp only [lineFinderCheck, List.all_eq_true] at hx
      have h2 := hx ph hmem
      rw [hfalse] at h2
      exact Bool.noConfusion h2

/-- A coordinate line pattern missing the required `@ZCoord`. -/
def C8pat : Str := " *@Atom +@XCoord +@YCoord *\n".data

theorem C8_malformed_rejection_witness :
    lineFinderCheck coordPlaceholders C8pat = false :=
  (C8_malformed_rejection C8pat).1 ⟨"@ZCoord".data, by decide, by decide⟩

/-! ## The energy patterns, `extract_energy` and `was_successful`

`rehelper.EnergyFinder` substitutes `capture(float_)` for `@Energy` in
each of its patterns; with the conventional pattern shape
`'<literal text>@Energy'` (for instance
`' *Reference Energy *= *@Energy *\n'` instantiated at concrete
spacing, or the doctest's `'Reference Energy = @Energy'`), the compiled
regex is a literal prefix followed by the capturing float token, which
is what we embed. -/

/-- Match a literal regex fragment: consumes exactly `lit`. -/
def parseLit : Str → Str → Option Str
  | [], s => some s
  | _ :: _, [] => none
  | c :: ls, d :: ss => if d = c then parseLit ls ss else none

/-- Match one compiled energy pattern (literal prefix, then the captured
float) at the start of `s`; returns the captured token and the rest. -/
def parseEnergyAt (lit : Str) (s : Str) : Option (Str × Str) :=
  match parseLit lit s with
  | none => none
  | some r =>
    match parseFloat r with
    | none => none
    | some fr => some fr

/-- Leftmost match of the energy pattern at any offset (`re.search`). -/
def energySearchAux (lit : Str) : Str → Option (Str × Str)
  | [] => none
  | c :: cs =>
    match parseEnergyAt lit (c :: cs) with
    | some fr => some fr
    | none => energySearchAux lit cs

/-- All matches, scanning left to right and resuming after each match
(`re.finditer`).  The fuel only bounds recursion; `length + 1` always
suffices because a match consumes at least the float token. -/
def energyFindAllF (lit : Str) : Nat → Str → List Str
  | 0, _ => []
  | fuel + 1, s =>
    match energySearchAux lit s with
    | none => []
    | some (f, rest) => f :: energyFindAllF lit fuel rest

def energyFindAll (lit s : Str) : List Str := energyFindAllF lit (s.length + 1) s

/-- `rehelper.get_last_match`: the last of the matches, or the generic
`ValueError("No match found in string.")` that `get_last_match` itself
raises when there is none. -/
def getLastMatchE (lit s : Str) : Except Str Str :=
  match (energyFindAll lit s).getLast? with
  | none => Except.error "No match found in string.".data
  | some f => Except.ok f

/-- Digit run to a natural number. -/
def digitsToNat (ds : Str) : Nat := ds.foldl (fun n c => 10 * n + (c.toNat - 48)) 0

/-- An exact decimal value `num / 10 ^ scale`.  Python sums `float`s;
we model the matched decimal tokens by their exact values, kept as an
integer over a power of ten so that all arithmetic is plain integer
arithmetic (for the tokens in question the two agree digit for digit,
and sums of equal-scale values are equal exactly when the floats
are). -/
structure DecVal where
  num : Int
  scale : Nat
deriving Repr, DecidableEq

/-- Exact addition: common power-of-ten denominator. -/
def DecVal.add (a b : DecVal) : DecVal :=
  ⟨a.num * (10 : Int) ^ b.scale + b.num * (10 : Int) ^ a.scale, a.scale + b.scale⟩

/-- Value of an unsigned float token `\d+\.\d+`. -/
def decFloatPos (t : Str) : DecVal :=
  match spanP isDigitCh t with
  | (ip, r) =>
    match r with
    | '.' :: frac =>
      ⟨(digitsToNat ip * 10 ^ frac.length + digitsToNat frac : Int), frac.length⟩
    | _ => ⟨(digitsToNat ip : Int), 0⟩

/-- Python `float` on a matched token `-?\d+\.\d+`. -/
def decFloat (tok : Str) : DecVal :=
  match tok with
  | '-' :: t =>
    match decFloatPos t with
    | ⟨n, k⟩ => ⟨-n, k⟩
  | t => decFloatPos t

/-- `parse.stringtypes.EnergyString`: the stored text, the energy
finder's compiled pattern prefixes, and the success-indicator pattern
(embedded as literal text). -/
structure EnergyStr where
  string : Str
  energyLits : List Str
  successPat : Str
deriving Repr, DecidableEq

/-- The loop of `extract_energy`: for each pattern take the last match
in the whole string, convert to float, and sum.  `get_last_match` raises
its own generic error when a pattern has no match, so the loop never
reaches the `if not match` branch of `extract_energy`. -/
def extractEnergyLoop (s : Str) : List Str → Except Str DecVal
  | [] => Except.ok ⟨0, 0⟩
  | lit :: lits =>
    match getLastMatchE lit s with
    | Except.error e => Except.error e
    | Except.ok f =>
      match extractEnergyLoop s lits with
      | Except.error e => Except.error e
      | Except.ok q => Except.ok ((decFloat f).add q)

def extractEnergy (c : EnergyStr) : Except Str DecVal :=
  extractEnergyLoop c.string c.energyLits

/-- `EnergyString.was_successful`: `bool(re.search(success_pattern,
self.string))`. -/
def wasSuccessful (c : EnergyStr) : Bool := containsSub c.string c.successPat

/-- Every error `extract_energy` can raise is `get_last_match`'s generic
message; in particular no error identifies the offending pattern. -/
theorem extractEnergyLoop_error :
    ∀ (s : Str) (lits : List Str) (e : Str),
      extractEnergyLoop s lits = Except.error e →
      e = "No match found in string.".data := by
  intro s lits
  induction lits with
  | nil => intro e h; cases h
  | cons lit lits ih =>
    intro e h
    rw [extractEnergyLoop] at h
    cases hg : getLastMatchE lit s with
    | error e2 =>
      rw [hg] at h
      simp only [Except.error.injEq] at h
      rw [getLastMatchE] at hg
      cases hl : (energyFindAll lit s).getLast? with
      | none =>
        rw [hl] at hg
        simp only [Except.error.injEq] at hg
        rw [← h, ← hg]
      | some f =>
        rw [hl] at hg
        exact Except.noConfusion hg
    | ok f =>
      rw [hg] at h
      cases hr : extractEnergyLoop s lits with
      | error e2 =>
        rw [hr] at h
        simp only [Except.error.injEq] at h
        rw [← h]
        exact ih e2 hr
      | ok q =>
        rw [hr] at h
        exact Except.noConfusion h

theorem beginsWith_iff :
    ∀ (pat s : Str), beginsWith pat s = true ↔ ∃ v, s = pat ++ v := by
  intro pat
  induction pat with
  | nil =>
    intro s
    simp only [beginsWith, List.nil_append]
    constructor
    · intro _; exact ⟨s, rfl⟩
    · intro _; trivial
  | cons c ps ih =>
    intro s
    cases s with
    | nil =>
      simp only [beginsWith]
      constructor
      · intro h; exact Bool.noConfusion h
      · intro h; obtain ⟨v, hv⟩ := h; exact List.noConfusion hv
    | cons d ss =>
      simp only [beginsWith]
      by_cases hdc : d = c
      · rw [if_pos hdc, ih ss]
        constructor
        · intro h
          obtain ⟨v, hv⟩ := h
          exact ⟨v, by rw [List.cons_append, ← hv, hdc]⟩
        · intro h
          obtain ⟨v, hv⟩ := h
          rw [List.cons_append] at hv
          injection hv with h1 h2
          exact ⟨v, h2⟩
      · rw [if_neg hdc]
        constructor
        · intro h; exact Bool.noConfusion h
        · intro h
          obtain ⟨v, hv⟩ := h
          rw [List.cons_append] at hv
          injection hv with h1 h2
          exact absurd h1 hdc

/-- `containsSub` is exactly occurrence of `pat` somewhere in `s`. -/
theorem containsSub_iff :
    ∀ (s pat : Str), containsSub s pat = true ↔ ∃ u v, s = u ++ pat ++ v := by
  intro s pat
  induction s with
  | nil =>
    simp only [containsSub, beginsWith_iff]
    constructor
    · intro h
      obtain ⟨v, hv⟩ := h
      exact ⟨[], v, by rw [List.nil_append]; exact hv⟩
    · intro h
      obtain ⟨u, v, huv⟩ := h
      cases u with
      | nil => exact ⟨v, by simpa using huv⟩
      | cons a us => exact absurd huv (by simp)
  | cons c cs ih =>
    simp only [containsSub, Bool.or_eq_true, beginsWith_iff, ih]
    constructor
    · intro h
      rcases h with ⟨v, hv⟩ | ⟨u, v, huv⟩
      · exact ⟨[], v, by rw [List.nil_append]; exact hv⟩
      · exact ⟨c :: u, v, by rw [huv]; rfl⟩
    · intro h
      obtain ⟨u, v, huv⟩ := h
      cases u with
      | nil =>
        exact Or.inl ⟨v, by simpa using huv⟩
      | cons a us =>
        rw [List.cons_append] at huv
        injection huv with h1 h2
        exact Or.inr ⟨us, v, h2⟩

/-- C7: `was_successful` is a pure presence test of the
success-indicator pattern on the stored string: it returns `true`
exactly when the pattern occurs somewhere in the string, it returns
`false` rather than raising when the pattern is absent, and its value
depends only on the string and the success pattern — two containers
sharing those, but whose energy finders differ (so that scalar
extraction succeeds on one and fails on the other), always agree. -/
theorem C7_success_independence (c1 c2 : EnergyStr)
    (hs : c1.string = c2.string) (hp : c1.successPat = c2.successPat) :
    (wasSuccessful c1 = true ↔ ∃ u v, c1.string = u ++ c1.successPat ++ v) ∧
    (wasSuccessful c1 = false ↔ ¬ ∃ u v, c1.string = u ++ c1.successPat ++ v) ∧
    wasSuccessful c1 = wasSuccessful c2 := by
  refine ⟨containsSub_iff c1.string c1.successPat, ?_, ?_⟩
  · rw [← containsSub_iff c1.string c1.successPat]
    simp only [wasSuccessful]
    cases hx : containsSub c1.string c1.successPat <;> simp
  · rw [wasSuccessful, wasSuccessful, hs, hp]

def C7text : Str := "Energy = -1.5\n".data

/-- Container whose energy finder has no match in the text. -/
def C7c1 : EnergyStr := ⟨C7text, ["Missing = ".data], "exiting successfully".data⟩

/-- Container with the same text and success pattern whose energy
extraction succeeds. -/
def C7c2 : EnergyStr := ⟨C7text, ["Energy = ".data], "exiting successfully".data⟩

/-- A container whose text does contain the success indicator. -/
def C7ok : EnergyStr :=
  ⟨"Energy = -1.5\ndone exiting successfully.\n".data, ["Energy = ".data],
   "exiting successfully".data⟩

theorem C7_success_independence_witness :
    wasSuccessful C7c1 = wasSuccessful C7c2 ∧
    extractEnergy C7c1 = Except.error "No match found in string.".data ∧
    extractEnergy C7c2 = Except.ok ((decFloat "-1.5".data).add ⟨0, 0⟩) ∧
    wasSuccessful C7c1 = false ∧
    wasSuccessful C7ok = true :=
  ⟨(C7_success_independence C7c1 C7c2 rfl rfl).2.2,
   by decide, by decide, by decide,
   (C7_success_independence C7ok C7ok rfl rfl).1.mpr
     ⟨"Energy = -1.5\ndone ".data, ".\n".data, by decide⟩⟩

def C6lit1 : Str := "Reference Energy = ".data

def C6lit2 : Str := "Correlation Energy = ".data

/-- A text matching both energy patterns, the first one twice. -/
def C6ok : EnergyStr :=
  ⟨("Reference Energy = -70.1000\nReference Energy = -74.9610\n" ++
    "Correlation Energy = -0.0346\n").data, [C6lit1, C6lit2], "ok".data⟩

/-- A text in which the second energy pattern has no match. -/
def C6bad : EnergyStr :=
  ⟨"Reference Energy = -74.9610\nno correlation value here\n".data,
   [C6lit1, C6lit2], "ok".data⟩

/-- C6: The summation half of the claim holds: with every sub-pattern
matched, `extract_energy` returns the sum of the type-converted values
of the *last* match of each sub-pattern (first conjunct; the second
conjunct checks it is not the first-match sum).  The failure half does
not hold as specified: when a sub-pattern has no match,
`rehelper.get_last_match` itself raises the generic
`ValueError("No match found in string.")` before `extract_energy` can
inspect the result, so the branch of `extract_energy` that would name
the offending pattern is unreachable and no error ever identifies the
sub-pattern (last conjunct). -/
theorem C6_scalar_summation :
    extractEnergy C6ok =
      Except.ok ((decFloat "-74.9610".data).add (decFloat "-0.0346".data)) ∧
    extractEnergy C6ok ≠
      Except.ok ((decFloat "-70.1000".data).add (decFloat "-0.0346".data)) ∧
    extractEnergy C6bad = Except.error "No match found in string.".data ∧
    (∀ c : EnergyStr, ∀ e, extractEnergy c = Except.error e →
      e = "No match found in string.".data) := by
  refine ⟨by decide, by decide, by decide, ?_⟩
  intro c e h
  exact extractEnergyLoop_error c.string c.energyLits e h

theorem C6_scalar_summation_witness :
    extractEnergy C6bad = Except.error "No match found in string.".data ∧
    "No match found in string.".data = "No match found in string.".data :=
  ⟨by decide,
   C6_scalar_summation.2.2.2 C6bad "No match found in string.".data (by decide)⟩

/-! ## The units pattern and `extract_units` (C4)

`rehelper.UnitsFinder` with the default pattern `' *units +@Units *\n'`
compiles (substituting `capture(word)`, `word = [a-zA-Z]{2,}`) to
`' *units +([a-zA-Z]{2,}) *\n'`.  Greedy matching is deterministic on
this pattern for the same reason as for the coordinate pattern: every
repetition is followed by a character class disjoint from its own. -/

/-- `str.lower` on one character. -/
def toLowerCh (c : Char) : Char :=
  if 65 ≤ c.toNat ∧ c.toNat ≤ 90 then Char.ofNat (c.toNat + 32) else c

/-- `str.lower`. -/
def toLowerStr (s : Str) : Str := s.map toLowerCh

/-- The literal fragment `units` of the units pattern. -/
def unitsLit : Str := ['u', 'n', 'i', 't', 's']

/-- Greedy `[a-zA-Z]{2,}` (the `word` fragment). -/
def parseWord (s : Str) : Option (Str × Str) :=
  if 2 ≤ (spanP isLetter s).1.length then some (spanP isLetter s) else none

/-- Match the compiled units pattern `' *units +([a-zA-Z]{2,}) *\n'` at
the start of `s`, greedily; returns the captured word and the rest.  The
match ends right after the `'\n'` required by the pattern. -/
def parseUnitsAt (s : Str) : Option (Str × Str) :=
  match parseLit unitsLit (spanP isSp s).2 with
  | none => none
  | some r2 =>
    match parseSp1 r2 with
    | none => none
    | some sr =>
      match parseWord sr.2 with
      | none => none
      | some wr =>
        if (spanP isSp wr.2).2.head? = some '\n' then
          some (wr.1, (spanP isSp wr.2).2.tail)
        else none

/-- Leftmost match of the units pattern at any offset (`re.search`). -/
def unitsSearchAux : Str → Option (Str × Str)
  | [] => none
  | c :: cs =>
    match parseUnitsAt (c :: cs) with
    | some wr => some wr
    | none => unitsSearchAux cs

/-- The first in-line match's captured word, if any. -/
def lineUnits (l : Str) : Option Str := (unitsSearchAux l).map (fun x => x.1)

/-- All matches left to right (`re.finditer`); fuel only bounds the
recursion, `length + 1` always suffices. -/
def unitsFindAllF : Nat → Str → List Str
  | 0, _ => []
  | fuel + 1, s =>
    match unitsSearchAux s with
    | none => []
    | some (w, rest) => w :: unitsFindAllF fuel rest

def unitsFindAll (s : Str) : List Str := unitsFindAllF (s.length + 1) s

/-- `parse.stringtypes.CoordinateString.extract_units`:
`get_last_match(units_pattern, self.string)` on the *whole* stored
string, then `match.group(1).lower()`.  `none` models the raised
`ValueError` when no units line is present. -/
def extractUnitsST (s : Str) : Option Str :=
  ((unitsFindAll s).getLast?).map toLowerStr

/-- `parse.py CoordinateString.extract_units` and
`xyzstr.UnitsFinder.get_units`: `re.search(units_pattern, string)` — the
*first* match — then `match.group(1).lower()`. -/
def extractUnitsPy (s : Str) : Option Str :=
  (unitsSearchAux s).map (fun x => toLowerStr x.1)

/-- A greedy span never crosses a character the predicate rejects: with
`p '\n' = false`, spanning `b ++ '\n' :: R` spans within `b` only. -/
theorem spanP_stop_nl (p : Char → Bool) (hp : p '\n' = false) :
    ∀ (b R : Str),
      spanP p (b ++ '\n' :: R) = ((spanP p b).1, (spanP p b).2 ++ '\n' :: R) := by
  intro b R
  induction b with
  | nil =>
    have h1 : spanP p ('\n' :: R) = ([], '\n' :: R) := by
      rw [spanP, if_neg (by simp [hp])]
    rw [List.nil_append, h1]
    rfl
  | cons c cs ih =>
    by_cases hc : p c = true
    · rw [List.cons_append, spanP, if_pos hc, ih, spanP, if_pos hc]
    · rw [List.cons_append, spanP, if_neg hc, spanP, if_neg hc]
      rfl

theorem parseLit_recon :
    ∀ (lit s r : Str), parseLit lit s = some r → s = lit ++ r := by
  intro lit
  induction lit with
  | nil =>
    intro s r h
    rw [parseLit] at h
    injection h with h
  | cons c ls ih =>
    intro s r h
    cases s with
    | nil => rw [parseLit] at h; cases h
    | cons d ss =>
      rw [parseLit] at h
      by_cases hdc : d = c
      · rw [if_pos hdc] at h
        rw [List.cons_append, ← hdc, ih ss r h]
      · rw [if_neg hdc] at h; cases h

theorem parseLit_append :
    ∀ (lit b r x : Str), parseLit lit b = some r → parseLit lit (b ++ x) = some (r ++ x) := by
  intro lit
  induction lit with
  | nil =>
    intro b r x h
    rw [parseLit] at h ⊢
    injection h with h
    rw [h]
  | cons c ls ih =>
    intro b r x h
    cases b with
    | nil => rw [parseLit] at h; cases h
    | cons d bs =>
      rw [parseLit] at h
      rw [List.cons_append, parseLit]
      by_cases hdc : d = c
      · rw [if_pos hdc] at h ⊢
        exact ih bs r x h
      · rw [if_neg hdc] at h; cases h

theorem parseLit_nl_none :
    ∀ (lit : Str), (∀ c ∈ lit, c ≠ '\n') →
      ∀ (b R : Str), parseLit lit b = none → parseLit lit (b ++ '\n' :: R) = none := by
  intro lit
  induction lit with
  | nil => intro _ b R h; rw [parseLit] at h; cases h
  | cons c ls ih =>
    intro hlit b R h
    cases b with
    | nil =>
      rw [List.nil_append, parseLit,
        if_neg (fun he => hlit c (by simp) he.symm)]
    | cons d bs =>
      rw [parseLit] at h
      rw [List.cons_append, parseLit]
      by_cases hdc : d = c
      · rw [if_pos hdc] at h ⊢
        exact ih (fun x hx => hlit x (by simp [hx])) bs R h
      · rw [if_neg hdc]

theorem parseSp1_stop_none (b R : Str) (h : parseSp1 b = none) :
    parseSp1 (b ++ '\n' :: R) = none := by
  have e := spanP_stop_nl isSp (by decide) b R
  have hb : (spanP isSp b).1 = [] := by
    by_cases hb : (spanP isSp b).1 = []
    · exact hb
    · rw [parseSp1, if_neg hb] at h; cases h
  simp [parseSp1, e, hb]

theorem parseSp1_stop_some (b R t d : Str) (h : parseSp1 b = some (t, d)) :
    parseSp1 (b ++ '\n' :: R) = some (t, d ++ '\n' :: R) := by
  have e := spanP_stop_nl isSp (by decide) b R
  have hb : (spanP isSp b).1 ≠ [] := by
    intro hb
    rw [parseSp1, if_pos hb] at h; cases h
  rw [parseSp1, if_neg hb] at h
  injection h with h
  have hb2 : t ≠ [] := by
    intro ht
    apply hb
    rw [h, ht]
  simp [parseSp1, e, h, hb2]

theorem parseWord_stop_none (b R : Str) (h : parseWord b = none) :
    parseWord (b ++ '\n' :: R) = none := by
  have e := spanP_stop_nl isLetter (by decide) b R
  have hb : ¬ 2 ≤ (spanP isLetter b).1.length := by
    intro hb
    rw [parseWord, if_pos hb] at h; cases h
  simp [parseWord, e, hb]

theorem parseWord_stop_some (b R t d : Str) (h : parseWord b = some (t, d)) :
    parseWord (b ++ '\n' :: R) = some (t, d ++ '\n' :: R) := by
  have e := spanP_stop_nl isLetter (by decide) b R
  have hb : 2 ≤ (spanP isLetter b).1.length := by
    by_cases hb : 2 ≤ (spanP isLetter b).1.length
    · exact hb
    · rw [parseWord, if_neg hb] at h; cases h
  rw [parseWord, if_pos hb] at h
  injection h with h
  have hb2 : 2 ≤ t.length := by
    have h3 := congrArg Prod.fst h
    simp only at h3
    rw [← h3]
    exact hb
  simp [parseWord, e, h, hb2]

theorem parseWord_recon {s t d : Str} (h : parseWord s = some (t, d)) : t ++ d = s := by
  rw [parseWord] at h
  by_cases hb : 2 ≤ (spanP isLetter s).1.length
  · rw [if_pos hb] at h
    injection h with h
    have h2 := spanP_append isLetter s
    rw [h] at h2
    exact h2
  · rw [if_neg hb] at h; cases h

/-- Locality of the units pattern at one offset: on a newline-free
stretch `v`, matching against `v ++ ['\n']` and against
`v ++ '\n' :: R` agree — a failed match stays failed, and a successful
match ends exactly at the `'\n'` (so the plain rest is `[]` and the
extended rest is `R`). -/
theorem parseUnitsAt_stop (v R : Str) (hv : ∀ c ∈ v, c ≠ '\n') :
    (parseUnitsAt (v ++ ['\n']) = none → parseUnitsAt (v ++ '\n' :: R) = none) ∧
    (∀ tok r, parseUnitsAt (v ++ ['\n']) = some (tok, r) →
      r = [] ∧ parseUnitsAt (v ++ '\n' :: R) = some (tok, R)) := by
  have hlitfree : ∀ c ∈ unitsLit, c ≠ '\n' := by decide
  have e1 := spanP_stop_nl isSp (by decide) v R
  have e1b := spanP_stop_nl isSp (by decide) v []
  cases hL : parseLit unitsLit (spanP isSp v).2 with
  | none =>
    have a1 : parseLit unitsLit ((spanP isSp v).2 ++ '\n' :: R) = none :=
      parseLit_nl_none unitsLit hlitfree _ R hL
    have a1b : parseLit unitsLit ((spanP isSp v).2 ++ '\n' :: []) = none :=
      parseLit_nl_none unitsLit hlitfree _ [] hL
    have hplain : parseUnitsAt (v ++ ['\n']) = none := by
      simp [parseUnitsAt, e1b, a1b]
    constructor
    · intro _
      simp [parseUnitsAt, e1, a1]
    · intro tok r h
      rw [hplain] at h
      exact Option.noConfusion h
  | some r2 =>
    have a1 : parseLit unitsLit ((spanP isSp v).2 ++ '\n' :: R) = some (r2 ++ '\n' :: R) :=
      parseLit_append unitsLit _ r2 ('\n' :: R) hL
    have a1b : parseLit unitsLit ((spanP isSp v).2 ++ '\n' :: []) = some (r2 ++ '\n' :: []) :=
      parseLit_append unitsLit _ r2 ('\n' :: []) hL
    cases hS : parseSp1 r2 with
    | none =>
      have a2 := parseSp1_stop_none r2 R hS
      have a2b := parseSp1_stop_none r2 [] hS
      have hplain : parseUnitsAt (v ++ ['\n']) = none := by
        simp [parseUnitsAt, e1b, a1b, a2b]
      constructor
      · intro _
        simp [parseUnitsAt, e1, a1, a2]
      · intro tok r h
        rw [hplain] at h
        exact Option.noConfusion h
    | some td =>
      obtain ⟨t2, d2⟩ := td
      have a2 := parseSp1_stop_some r2 R t2 d2 hS
      have a2b := parseSp1_stop_some r2 [] t2 d2 hS
      cases hW : parseWord d2 with
      | none =>
        have a3 := parseWord_stop_none d2 R hW
        have a3b := parseWord_stop_none d2 [] hW
        have hplain : parseUnitsAt (v ++ ['\n']) = none := by
          simp [parseUnitsAt, e1b, a1b, a2b, a3b]
        constructor
        · intro _
          simp [parseUnitsAt, e1, a1, a2, a3]
        · intro tok r h
          rw [hplain] at h
          exact Option.noConfusion h
      | some wd =>
        obtain ⟨t3, d3⟩ := wd
        have a3 := parseWord_stop_some d2 R t3 d3 hW
        have a3b := parseWord_stop_some d2 [] t3 d3 hW
        have e4 := spanP_stop_nl isSp (by decide) d3 R
        have e4b := spanP_stop_nl isSp (by decide) d3 []
        have hd1 : (spanP isSp v).2 = unitsLit ++ r2 := parseLit_recon unitsLit _ r2 hL
        have hr2free : ∀ c ∈ r2, c ≠ '\n' := by
          intro c hc
          apply hv
          rw [← spanP_append isSp v]
          refine List.mem_append.mpr (Or.inr ?_)
          rw [hd1]
          exact List.mem_append.mpr (Or.inr hc)
        have hd2 : t2 ++ d2 = r2 := parseSp1_recon hS
        have hd2free : ∀ c ∈ d2, c ≠ '\n' := by
          intro c hc
          apply hr2free
          rw [← hd2]
          exact List.mem_append.mpr (Or.inr hc)
        have hd3 : t3 ++ d3 = d2 := parseWord_recon hW
        have hd3free : ∀ c ∈ d3, c ≠ '\n' := by
          intro c hc
          apply hd2free
          rw [← hd3]
          exact List.mem_append.mpr (Or.inr hc)
        have hd4free : ∀ c ∈ (spanP isSp d3).2, c ≠ '\n' := by
          intro c hc
          apply hd3free
          rw [← spanP_append isSp d3]
          exact List.mem_append.mpr (Or.inr hc)
        cases hd4 : (spanP isSp d3).2 with
        | nil =>
          have hplain : parseUnitsAt (v ++ ['\n']) = some (t3, []) := by
            simp [parseUnitsAt, e1b, a1b, a2b, a3b, e4b, hd4]
          have hext : parseUnitsAt (v ++ '\n' :: R) = some (t3, R) := by
            simp [parseUnitsAt, e1, a1, a2, a3, e4, hd4]
          constructor
          · intro h
            rw [hplain] at h
            exact Option.noConfusion h
          · intro tok r h
            rw [hplain] at h
            simp only [Option.some_inj, Prod.ext_iff] at h
            refine ⟨h.2.symm, ?_⟩
            rw [hext, h.1]
        | cons c4 d4 =>
          have hc4 : c4 ≠ '\n' := hd4free c4 (by rw [hd4]; simp)
          have hplain : parseUnitsAt (v ++ ['\n']) = none := by
            simp [parseUnitsAt, e1b, a1b, a2b, a3b, e4b, hd4, hc4]
          constructor
          · intro _
            simp [parseUnitsAt, e1, a1, a2, a3, e4, hd4, hc4]
          · intro tok r h
            rw [hplain] at h
            exact Option.noConfusion h

/-- A successful units match contains a `'\n'` right before its rest, so
it consumes at least one character. -/
theorem parseUnitsAt_recon {s w r : Str} (h : parseUnitsAt s = some (w, r)) :
    ∃ pre, s = pre ++ '\n' :: r := by
  rw [parseUnitsAt] at h
  cases hL : parseLit unitsLit (spanP isSp s).2 with
  | none => simp only [hL] at h; exact Option.noConfusion h
  | some r2 =>
    simp only [hL] at h
    cases hS : parseSp1 r2 with
    | none => simp only [hS] at h; exact Option.noConfusion h
    | some sr =>
      simp only [hS] at h
      cases hW : parseWord sr.2 with
      | none => simp only [hW] at h; exact Option.noConfusion h
      | some wr =>
        simp only [hW] at h
        by_cases hh : (spanP isSp wr.2).2.head? = some '\n'
        · rw [if_pos hh] at h
          simp only [Option.some_inj, Prod.ext_iff] at h
          obtain ⟨c5, t5, h5⟩ : ∃ c5 t5, (spanP isSp wr.2).2 = c5 :: t5 := by
            cases hx : (spanP isSp wr.2).2 with
            | nil => rw [hx] at hh; simp at hh
            | cons c5 t5 => exact ⟨c5, t5, rfl⟩
          have hc5 : c5 = '\n' := by
            rw [h5] at hh
            simpa using hh
          have hr : r = t5 := by
            rw [← h.2, h5]
            rfl
          refine ⟨(spanP isSp s).1 ++ unitsLit ++ sr.1 ++ wr.1 ++ (spanP isSp wr.2).1, ?_⟩
          have hb1 : (spanP isSp s).1 ++ (spanP isSp s).2 = s := spanP_append isSp s
          have hb2 : (spanP isSp s).2 = unitsLit ++ r2 := parseLit_recon unitsLit _ r2 hL
          have hb3 : sr.1 ++ sr.2 = r2 := parseSp1_recon (by rw [hS])
          have hb4 : wr.1 ++ wr.2 = sr.2 := parseWord_recon (by rw [hW])
          have hb5 : (spanP isSp wr.2).1 ++ (spanP isSp wr.2).2 = wr.2 :=
            spanP_append isSp wr.2
          rw [hr]
          calc s = (spanP isSp s).1 ++ (spanP isSp s).2 := hb1.symm
            _ = (spanP isSp s).1 ++ (unitsLit ++ r2) := by rw [hb2]
            _ = (spanP isSp s).1 ++ (unitsLit ++ (sr.1 ++ sr.2)) := by rw [hb3]
            _ = (spanP isSp s).1 ++ (unitsLit ++ (sr.1 ++ (wr.1 ++ wr.2))) := by
                rw [hb4]
            _ = (spanP isSp s).1 ++ (unitsLit ++ (sr.1 ++ (wr.1 ++
                ((spanP isSp wr.2).1 ++ (spanP isSp wr.2).2)))) := by rw [hb5]
            _ = (spanP isSp s).1 ++ (unitsLit ++ (sr.1 ++ (wr.1 ++
                ((spanP isSp wr.2).1 ++ ('\n' :: t5))))) := by rw [h5, hc5]
            _ = (spanP isSp s).1 ++ unitsLit ++ sr.1 ++ wr.1 ++
                (spanP isSp wr.2).1 ++ '\n' :: t5 := by simp [List.append_assoc]
        · rw [if_neg hh] at h
          exact Option.noConfusion h

theorem parseUnitsAt_consumed {s w r : Str} (h : parseUnitsAt s = some (w, r)) :
    r.length < s.length := by
  obtain ⟨pre, hp⟩ := parseUnitsAt_recon h
  rw [hp]
  simp only [List.length_append, List.length_cons]
  omega

/-- Search over a leading physical line: a match in the line is found
with the remaining text as rest; no match in the line means the search
continues in the remaining text. -/
theorem unitsSearchAux_stop :
    ∀ (v R : Str), (∀ c ∈ v, c ≠ '\n') →
      (unitsSearchAux (v ++ ['\n']) = none →
        unitsSearchAux (v ++ '\n' :: R) = unitsSearchAux R) ∧
      (∀ tok r, unitsSearchAux (v ++ ['\n']) = some (tok, r) →
        unitsSearchAux (v ++ '\n' :: R) = some (tok, R)) := by
  intro v
  induction v with
  | nil =>
    intro R _
    have h1 : ∀ X : Str, parseUnitsAt ('\n' :: X) = none := by
      intro X
      have h0 : spanP isSp ('\n' :: X) = ([], '\n' :: X) := by
        rw [spanP, if_neg (by decide)]
      simp [parseUnitsAt, h0, unitsLit, parseLit]
    constructor
    · intro _
      simp only [List.nil_append]
      rw [unitsSearchAux]
      simp only [h1 R]
    · intro tok r h
      simp only [List.nil_append] at h
      rw [unitsSearchAux] at h
      simp only [h1 []] at h
      rw [unitsSearchAux] at h
      exact Option.noConfusion h
  | cons a v ih =>
    intro R hv
    have hv2 : ∀ c ∈ v, c ≠ '\n' := fun c hc => hv c (by simp [hc])
    obtain ⟨pstop1, pstop2⟩ := parseUnitsAt_stop (a :: v) R hv
    simp only [List.cons_append] at pstop1 pstop2
    constructor
    · intro h
      simp only [List.cons_append] at h ⊢
      rw [unitsSearchAux] at h ⊢
      cases hp : parseUnitsAt (a :: (v ++ ['\n'])) with
      | some wr =>
        simp only [hp] at h
        exact Option.noConfusion h
      | none =>
        simp only [hp] at h
        simp only [pstop1 hp]
        exact (ih R hv2).1 h
    · intro tok r h
      simp only [List.cons_append] at h ⊢
      rw [unitsSearchAux] at h ⊢
      cases hp : parseUnitsAt (a :: (v ++ ['\n'])) with
      | some wr =>
        simp only [hp] at h
        obtain ⟨t, rr⟩ := wr
        simp only [Option.some_inj, Prod.ext_iff] at h
        have hres := (pstop2 t rr hp).2
        simp only [hres]
        rw [h.1]
      | none =>
        simp only [hp] at h
        simp only [pstop1 hp]
        exact (ih R hv2).2 tok r h

theorem unitsSearchAux_consumed :
    ∀ {s : Str} {w rest : Str}, unitsSearchAux s = some (w, rest) →
      rest.length < s.length := by
  intro s
  induction s with
  | nil => intro w rest h; cases h
  | cons c cs ih =>
    intro w rest h
    rw [unitsSearchAux] at h
    cases hp : parseUnitsAt (c :: cs) with
    | some wr =>
      simp only [hp] at h
      obtain ⟨t, rr⟩ := wr
      simp only [Option.some_inj, Prod.ext_iff] at h
      have := parseUnitsAt_consumed hp
      rw [← h.2]
      exact this
    | none =>
      simp only [hp] at h
      have := ih h
      simp only [List.length_cons]
      omega

theorem unitsFindAllF_congr :
    ∀ (f1 : Nat) (f2 : Nat) (s : Str), s.length < f1 → s.length < f2 →
      unitsFindAllF f1 s = unitsFindAllF f2 s := by
  intro f1
  induction f1 with
  | zero => intro f2 s h1 _; omega
  | succ f1 ih =>
    intro f2 s h1 h2
    cases f2 with
    | zero => omega
    | succ f2 =>
      rw [unitsFindAllF, unitsFindAllF]
      cases hs : unitsSearchAux s with
      | none => simp only [hs]
      | some x =>
        obtain ⟨w, rest⟩ := x
        simp only [hs]
        have hlen := unitsSearchAux_consumed hs
        rw [ih f2 rest (by omega) (by omega)]

theorem unitsFindAll_cons_match {l w r : Str} (R : Str) (hl : NlLine l)
    (h : unitsSearchAux l = some (w, r)) :
    unitsFindAll (l ++ R) = w :: unitsFindAll R := by
  obtain ⟨v, hlv, hv⟩ := hl
  have hsearch : unitsSearchAux (v ++ '\n' :: R) = some (w, R) := by
    apply (unitsSearchAux_stop v R hv).2 w r
    rw [← hlv]
    exact h
  have hlR : l ++ R = v ++ '\n' :: R := by rw [hlv]; simp
  rw [unitsFindAll, hlR, unitsFindAllF]
  simp only [hsearch]
  congr 1
  have hlen : R.length < (v ++ '\n' :: R).length := by
    simp only [List.length_append, List.length_cons]
    omega
  rw [unitsFindAll]
  exact unitsFindAllF_congr ((v ++ '\n' :: R).length) (R.length + 1) R hlen (by omega)

theorem unitsFindAll_cons_nomatch {l : Str} (R : Str) (hl : NlLine l)
    (h : unitsSearchAux l = none) :
    unitsFindAll (l ++ R) = unitsFindAll R := by
  obtain ⟨v, hlv, hv⟩ := hl
  have hsearch : unitsSearchAux (v ++ '\n' :: R) = unitsSearchAux R := by
    apply (unitsSearchAux_stop v R hv).1
    rw [← hlv]
    exact h
  have hlR : l ++ R = v ++ '\n' :: R := by rw [hlv]; simp
  rw [unitsFindAll, hlR, unitsFindAllF]
  simp only [hsearch]
  cases hs : unitsSearchAux R with
  | none =>
    rw [unitsFindAll, unitsFindAllF]
    simp only [hs]
  | some wr =>
    obtain ⟨w, rest⟩ := wr
    have hlen := unitsSearchAux_consumed hs
    rw [unitsFindAll, unitsFindAllF]
    simp only [hs]
    congr 1
    apply unitsFindAllF_congr
    · simp only [List.length_append, List.length_cons]
      omega
    · omega

/-- `re.finditer` of the units pattern over a text made of physical
lines collects, line by line, the first in-line match of each line. -/
theorem unitsFindAll_lines :
    ∀ (L : List Str), (∀ l ∈ L, NlLine l) →
      unitsFindAll L.flatten = L.filterMap lineUnits := by
  intro L
  induction L with
  | nil => intro _; rfl
  | cons l L2 ih =>
    intro h
    rw [List.flatten_cons, List.filterMap_cons]
    cases hs : unitsSearchAux l with
    | none =>
      rw [unitsFindAll_cons_nomatch _ (h l (by simp)) hs]
      simp only [show lineUnits l = none from by rw [lineUnits, hs]; rfl]
      exact ih (fun x hx => h x (by simp [hx]))
    | some wr =>
      obtain ⟨w, r⟩ := wr
      rw [unitsFindAll_cons_match _ (h l (by simp)) hs]
      simp only [show lineUnits l = some w from by rw [lineUnits, hs]; rfl]
      rw [ih (fun x hx => h x (by simp [hx]))]

/-- `re.search` of the units pattern over a text made of physical lines
finds the first line with an in-line match. -/
theorem unitsSearchAux_lines :
    ∀ (L : List Str), (∀ l ∈ L, NlLine l) →
      (unitsSearchAux L.flatten).map (fun x => x.1) =
        (L.filterMap lineUnits).head? := by
  intro L
  induction L with
  | nil => intro _; rfl
  | cons l L2 ih =>
    intro h
    rw [List.flatten_cons, List.filterMap_cons]
    obtain ⟨v, hlv, hv⟩ := h l (by simp)
    have hfl : l ++ L2.flatten = v ++ '\n' :: L2.flatten := by rw [hlv]; simp
    cases hs : unitsSearchAux l with
    | none =>
      have h1 := (unitsSearchAux_stop v L2.flatten hv).1 (by rw [← hlv]; exact hs)
      rw [hfl, h1]
      simp only [show lineUnits l = none from by rw [lineUnits, hs]; rfl]
      exact ih (fun x hx => h x (by simp [hx]))
    | some wr =>
      obtain ⟨w, r⟩ := wr
      have h1 := (unitsSearchAux_stop v L2.flatten hv).2 w r (by rw [← hlv]; exact hs)
      rw [hfl, h1]
      simp only [show lineUnits l = some w from by rw [lineUnits, hs]; rfl]
      rfl

theorem filterMap_none {f : Str → Option Str} :
    ∀ (l : List Str), (∀ x ∈ l, f x = none) → l.filterMap f = [] := by
  intro l
  induction l with
  | nil => intro _; rfl
  | cons x xs ih =>
    intro h
    rw [List.filterMap_cons]
    simp only [h x (by simp)]
    exact ih (fun y hy => h y (by simp [hy]))

/-- C4: Scope and policy of units extraction, per implementation.
`parse/stringtypes.py`'s `extract_units` applies the units pattern to
the *whole* stored string with the last-match policy and lower-cases the
captured group, and reports failure (the raised `ValueError`) exactly
when no line contains a units match.  The sibling implementations cited
by the claim — `parse.py`'s `extract_units` and
`xyzstr.UnitsFinder.get_units` — use `re.search`, i.e. the *first*
match, so the last-match half of the claim does not hold for them (see
the counterexample). -/
theorem C4_units_extraction :
    (∀ (L1 L2 L3 : List Str) (u1 u2 w1 w2 : Str),
      (∀ l ∈ L1 ++ L2 ++ L3, NlLine l ∧ lineUnits l = none) →
      NlLine u1 → lineUnits u1 = some w1 →
      NlLine u2 → lineUnits u2 = some w2 →
      extractUnitsST (L1 ++ (u1 :: (L2 ++ (u2 :: L3)))).flatten =
        some (toLowerStr w2) ∧
      extractUnitsPy (L1 ++ (u1 :: (L2 ++ (u2 :: L3)))).flatten =
        some (toLowerStr w1)) ∧
    (∀ (L : List Str), (∀ l ∈ L, NlLine l ∧ lineUnits l = none) →
      extractUnitsST L.flatten = none ∧ extractUnitsPy L.flatten = none) := by
  constructor
  · intro L1 L2 L3 u1 u2 w1 w2 hall hu1 hw1 hu2 hw2
    have h1 : ∀ l ∈ L1, NlLine l ∧ lineUnits l = none :=
      fun l hl => hall l (by simp [hl])
    have h2 : ∀ l ∈ L2, NlLine l ∧ lineUnits l = none :=
      fun l hl => hall l (by simp [hl])
    have h3 : ∀ l ∈ L3, NlLine l ∧ lineUnits l = none :=
      fun l hl => hall l (by simp [hl])
    have hnll : ∀ l ∈ L1 ++ (u1 :: (L2 ++ (u2 :: L3))), NlLine l := by
      intro l hl
      simp only [List.mem_append, List.mem_cons] at hl
      rcases hl with hl | hl | hl | hl | hl
      · exact (h1 l hl).1
      · rw [hl]; exact hu1
      · exact (h2 l hl).1
      · rw [hl]; exact hu2
      · exact (h3 l hl).1
    have hfm : (L1 ++ (u1 :: (L2 ++ (u2 :: L3)))).filterMap lineUnits = [w1, w2] := by
      rw [List.filterMap_append, List.filterMap_cons, List.filterMap_append,
        List.filterMap_cons]
      rw [filterMap_none L1 (fun x hx => (h1 x hx).2),
        filterMap_none L2 (fun x hx => (h2 x hx).2),
        filterMap_none L3 (fun x hx => (h3 x hx).2)]
      simp only [hw1, hw2]
      rfl
    have hfa := unitsFindAll_lines _ hnll
    rw [hfm] at hfa
    have hpy : ∀ s : Str, extractUnitsPy s =
        ((unitsSearchAux s).map (fun x => x.1)).map toLowerStr := by
      intro s
      cases hx : unitsSearchAux s with
      | none => simp [extractUnitsPy, hx]
      | some wr => simp [extractUnitsPy, hx]
    have hsa := unitsSearchAux_lines _ hnll
    rw [hfm] at hsa
    constructor
    · rw [extractUnitsST, hfa]
      rfl
    · rw [hpy, hsa]
      rfl
  · intro L hL
    have hnll : ∀ l ∈ L, NlLine l := fun l hl => (hL l hl).1
    have hfm : L.filterMap lineUnits = [] :=
      filterMap_none L (fun x hx => (hL x hx).2)
    have hfa := unitsFindAll_lines _ hnll
    rw [hfm] at hfa
    have hsa := unitsSearchAux_lines _ hnll
    rw [hfm] at hsa
    constructor
    · rw [extractUnitsST, hfa]
      rfl
    · have hnone : unitsSearchAux L.flatten = none := by
        cases hx : unitsSearchAux L.flatten with
        | none => rfl
        | some wr =>
          rw [hx] at hsa
          exact Option.noConfusion hsa
      rw [extractUnitsPy, hnone]
      rfl

/-- A text with two units lines: `BOHR` first, `Angstrom` last. -/
def C4text : Str := "# pre\nunits BOHR\nx\n units Angstrom \nz\n".data

theorem C4_units_extraction_witness :
    extractUnitsST C4text = some "angstrom".data ∧
    extractUnitsPy C4text = some "bohr".data := by
  have h := C4_units_extraction.1 ["# pre\n".data] ["x\n".data] ["z\n".data]
    "units BOHR\n".data " units Angstrom \n".data "BOHR".data "Angstrom".data
    ?_ ?_ ?_ ?_ ?_
  · have heq : C4text =
        (["# pre\n".data] ++ ("units BOHR\n".data :: (["x\n".data] ++
          (" units Angstrom \n".data :: ["z\n".data])))).flatten := by decide
    constructor
    · rw [heq, h.1]
      decide
    · rw [heq, h.2]
      decide
  · intro l hl
    simp only [List.mem_append, List.mem_singleton] at hl
    rcases hl with (hl | hl) | hl
    · rw [hl]
      exact ⟨⟨"# pre".data, by decide, by decide⟩, by decide⟩
    · rw [hl]
      exact ⟨⟨"x".data, by decide, by decide⟩, by decide⟩
    · rw [hl]
      exact ⟨⟨"z".data, by decide, by decide⟩, by decide⟩
  · exact ⟨"units BOHR".data, by decide, by decide⟩
  · decide
  · exact ⟨" units Angstrom ".data, by decide, by decide⟩
  · decide

/-- C4 counterexample: on a text with two units lines the cited
`parse.py` / `xyzstr.py` implementations (`re.search`, first match)
return `bohr` while the last-match policy demands `angstrom`. -/
theorem C4_units_extraction_counterexample :
    extractUnitsPy C4text = some "bohr".data ∧
    extractUnitsST C4text = some "angstrom".data ∧
    extractUnitsPy C4text ≠ extractUnitsST C4text := by
  refine ⟨by decide, by decide, by decide⟩

end Psider
